import Mathlib

/-!
Verification of the heads-up no-limit hold'em simulation core:
a shallow embedding of the 7-card hand evaluator (`src/fast_evaluator.py`),
the betting engine (`src/match_engine.py`), the Monte Carlo equity
estimator (`src/strategies/equity_calculator.py`) and the persisted
preflop-table loaders (`src/strategies/gtob_table.py`,
`src/strategies/RMBALL.py`), together with proofs and refutations of the
specification's claims about them.

Cards are integers in [0,52): rank = id mod 13 (0 = Two .. 12 = Ace),
suit = id div 13 (0 = spades, 1 = hearts, 2 = diamonds, 3 = clubs).
Python floats are modelled as rationals (the chip amounts involved are
dyadic, so float arithmetic in the source is exact on them); Python
exceptions are modelled by `Option`/`Except`; the `random` module is
modelled as a deterministic PRNG whose draws are a function of the seed
and of the draw position, passed in as explicit parameters.
-/

namespace Poker

/-- Rank-character map of `match_engine.RANK_MAP`. -/
def rankMap (c : Char) : ℕ :=
  if c = '2' then 0 else if c = '3' then 1 else if c = '4' then 2
  else if c = '5' then 3 else if c = '6' then 4 else if c = '7' then 5
  else if c = '8' then 6 else if c = '9' then 7 else if c = 'T' then 8
  else if c = 'J' then 9 else if c = 'Q' then 10 else if c = 'K' then 11
  else if c = 'A' then 12 else 0

/-- Suit-character map of `match_engine.SUIT_MAP`. -/
def suitMap (c : Char) : ℕ :=
  if c = 's' then 0 else if c = 'h' then 1 else if c = 'd' then 2
  else if c = 'c' then 3 else 0

/-- `match_engine.card_to_int`: card token to dense id. -/
def cardToInt (s : String) : ℕ :=
  rankMap (s.toList.getD 0 ' ') + suitMap (s.toList.getD 1 ' ') * 13

/-- `fast_evaluator.WHEEL_MASK`: Ace (bit 12) together with ranks 2..5 (bits 0..3). -/
def wheelMask : ℕ := (1 <<< 12) ||| (1 <<< 0) ||| (1 <<< 1) ||| (1 <<< 2) ||| (1 <<< 3)

/-- The 5-consecutive-rank window mask ending (high) at rank `i`,
as built by the inner `for j in range(5)` loops of `evaluate_hand`. -/
def sMask (i : ℕ) : ℕ := (List.range 5).foldl (fun m j => m ||| (1 <<< (i - j))) 0

/-- The scan order `range(12, 3, -1)` of the straight checks: 12 down to 4. -/
def straightWindows : List ℕ := (List.range' 4 9).reverse

/-- Rank presence bitmask of a list of ranks (`mask |= 1 << r` loop). -/
def rankMask (l : List ℕ) : ℕ := l.foldl (fun m r => m ||| (1 <<< r)) 0

/-- The flush-detection loop of `evaluate_hand`: walk the suits, counting,
and stop at the first suit whose count reaches 5 (`-1` becomes `none`). -/
def flushSuitLoop : List ℕ → (ℕ → ℕ) → Option ℕ
  | [], _ => none
  | s :: rest, counts =>
    let counts' := Function.update counts s (counts s + 1)
    if 5 ≤ counts' s then some s else flushSuitLoop rest counts'

/-- The `rank_counts` accumulation loop of `evaluate_hand`. -/
def rankCountsLoop (l : List ℕ) (init : ℕ → ℕ) : ℕ → ℕ :=
  l.foldl (fun g r => Function.update g r (g r + 1)) init

/-- The scan order `range(12, -1, -1)`: ranks 12 down to 0. -/
def descRanks : List ℕ := (List.range 13).reverse

/-- Translation of `fast_evaluator.evaluate_hand`.  The Python `for` loops
with `break`/early `return` become `find?`/`filter`/`take` over the same
iteration ranges; list indexing uses `getD` (this total version is the one
the valid 7-card inputs reach; `evaluateHandChecked` below models the
indexing errors Python can raise on malformed input). -/
def evaluateHand (cards : List ℕ) : ℕ :=
  let ranks := cards.map (fun c => c % 13)
  let suits := cards.map (fun c => c / 13)
  match flushSuitLoop suits (fun _ => 0) with
  | some flush_suit =>
    let flush_ranks := List.insertionSort (fun a b => a ≥ b)
      (((ranks.zip suits).filter (fun p => p.2 == flush_suit)).map (fun p => p.1))
    let mask := rankMask flush_ranks
    match straightWindows.find? (fun i => (mask &&& sMask i) == sMask i) with
    | some i => (8 <<< 20) ||| (i <<< 16)
    | none =>
      if mask &&& wheelMask = wheelMask then (8 <<< 20) ||| (3 <<< 16)
      else (List.range 5).foldl
        (fun sc i => sc ||| (flush_ranks.getD i 0 <<< (16 - 4 * i))) (5 <<< 20)
  | none =>
    let mask := rankMask ranks
    match straightWindows.find? (fun i => (mask &&& sMask i) == sMask i) with
    | some i => (4 <<< 20) ||| (i <<< 16)
    | none =>
      if mask &&& wheelMask = wheelMask then (4 <<< 20) ||| (3 <<< 16)
      else
        let rank_counts := rankCountsLoop ranks (fun _ => 0)
        let quads := descRanks.filter (fun r => rank_counts r == 4)
        let trips := descRanks.filter (fun r => rank_counts r == 3)
        let pairs := descRanks.filter (fun r => rank_counts r == 2)
        if quads ≠ [] then
          let kicker := (descRanks.find?
            (fun r => r != quads.headD 0 && rank_counts r != 0)).getD 0
          (7 <<< 20) ||| (quads.headD 0 <<< 16) ||| (kicker <<< 12)
        else if trips ≠ [] ∧ (2 ≤ trips.length ∨ pairs ≠ []) then
          let high_trip := trips.headD 0
          let hp0 : ℕ :=
            if 2 ≤ trips.length then trips.getD 1 0
            else if pairs ≠ [] then pairs.headD 0 else 0
          let high_pair :=
            if pairs ≠ [] ∧ 2 ≤ trips.length ∧ trips.getD 1 0 < pairs.headD 0
            then pairs.headD 0 else hp0
          (6 <<< 20) ||| (high_trip <<< 16) ||| (high_pair <<< 12)
        else if trips.length = 1 then
          let kickers := (descRanks.filter
            (fun r => r != trips.headD 0 && rank_counts r != 0)).take 2
          (3 <<< 20) ||| (trips.headD 0 <<< 16) |||
            (kickers.getD 0 0 <<< 12) ||| (kickers.getD 1 0 <<< 8)
        else if 2 ≤ pairs.length then
          let p1 := pairs.headD 0
          let p2 := pairs.getD 1 0
          let kicker := (descRanks.find?
            (fun r => r != p1 && r != p2 && rank_counts r != 0)).getD 0
          (2 <<< 20) ||| (p1 <<< 16) ||| (p2 <<< 12) ||| (kicker <<< 8)
        else if pairs.length = 1 then
          let p1 := pairs.headD 0
          let kickers := (descRanks.filter
            (fun r => r != p1 && rank_counts r != 0)).take 3
          (1 <<< 20) ||| (p1 <<< 16) ||| (kickers.getD 0 0 <<< 12) |||
            (kickers.getD 1 0 <<< 8) ||| (kickers.getD 2 0 <<< 4)
        else
          let kickers := (descRanks.filter (fun r => rank_counts r != 0)).take 5
          kickers.enum.foldl (fun sc p => sc ||| (p.2 <<< (16 - 4 * p.1))) 0

/-- Error-aware translation of `evaluate_hand`: identical to `evaluateHand`
except that the list indexings which raise `IndexError` in Python when the
input violates the 7-card contract return `none` here.  On any 7-element
input all the indexings are in range and this agrees with `evaluateHand`. -/
def evaluateHandChecked (cards : List ℕ) : Option ℕ :=
  let ranks := cards.map (fun c => c % 13)
  let suits := cards.map (fun c => c / 13)
  match flushSuitLoop suits (fun _ => 0) with
  | some flush_suit =>
    let flush_ranks := List.insertionSort (fun a b => a ≥ b)
      (((ranks.zip suits).filter (fun p => p.2 == flush_suit)).map (fun p => p.1))
    let mask := rankMask flush_ranks
    match straightWindows.find? (fun i => (mask &&& sMask i) == sMask i) with
    | some i => some ((8 <<< 20) ||| (i <<< 16))
    | none =>
      if mask &&& wheelMask = wheelMask then some ((8 <<< 20) ||| (3 <<< 16))
      else if flush_ranks.length < 5 then none
      else some ((List.range 5).foldl
        (fun sc i => sc ||| (flush_ranks.getD i 0 <<< (16 - 4 * i))) (5 <<< 20))
  | none =>
    let mask := rankMask ranks
    match straightWindows.find? (fun i => (mask &&& sMask i) == sMask i) with
    | some i => some ((4 <<< 20) ||| (i <<< 16))
    | none =>
      if mask &&& wheelMask = wheelMask then some ((4 <<< 20) ||| (3 <<< 16))
      else
        let rank_counts := rankCountsLoop ranks (fun _ => 0)
        let quads := descRanks.filter (fun r => rank_counts r == 4)
        let trips := descRanks.filter (fun r => rank_counts r == 3)
        let pairs := descRanks.filter (fun r => rank_counts r == 2)
        if quads ≠ [] then
          let kicker := (descRanks.find?
            (fun r => r != quads.headD 0 && rank_counts r != 0)).getD 0
          some ((7 <<< 20) ||| (quads.headD 0 <<< 16) ||| (kicker <<< 12))
        else if trips ≠ [] ∧ (2 ≤ trips.length ∨ pairs ≠ []) then
          let high_trip := trips.headD 0
          let hp0 : ℕ :=
            if 2 ≤ trips.length then trips.getD 1 0
            else if pairs ≠ [] then pairs.headD 0 else 0
          let high_pair :=
            if pairs ≠ [] ∧ 2 ≤ trips.length ∧ trips.getD 1 0 < pairs.headD 0
            then pairs.headD 0 else hp0
          some ((6 <<< 20) ||| (high_trip <<< 16) ||| (high_pair <<< 12))
        else if trips.length = 1 then
          let kickers := (descRanks.filter
            (fun r => r != trips.headD 0 && rank_counts r != 0)).take 2
          if kickers.length < 2 then none
          else some ((3 <<< 20) ||| (trips.headD 0 <<< 16) |||
            (kickers.getD 0 0 <<< 12) ||| (kickers.getD 1 0 <<< 8))
        else if 2 ≤ pairs.length then
          let p1 := pairs.headD 0
          let p2 := pairs.getD 1 0
          let kicker := (descRanks.find?
            (fun r => r != p1 && r != p2 && rank_counts r != 0)).getD 0
          some ((2 <<< 20) ||| (p1 <<< 16) ||| (p2 <<< 12) ||| (kicker <<< 8))
        else if pairs.length = 1 then
          let p1 := pairs.headD 0
          let kickers := (descRanks.filter
            (fun r => r != p1 && rank_counts r != 0)).take 3
          if kickers.length < 3 then none
          else some ((1 <<< 20) ||| (p1 <<< 16) ||| (kickers.getD 0 0 <<< 12) |||
            (kickers.getD 1 0 <<< 8) ||| (kickers.getD 2 0 <<< 4))
        else
          let kickers := (descRanks.filter (fun r => rank_counts r != 0)).take 5
          some (kickers.enum.foldl (fun sc p => sc ||| (p.2 <<< (16 - 4 * p.1))) 0)

/-! ### Spec-side ranking

The spec describes a `HandScore` as a category followed by tiebreak ranks in
strictly decreasing order of significance, compared lexicographically. -/

/-- The field vector of a hand score: category and the five tiebreak rank
fields in decreasing order of significance (unused fields are zero). -/
structure HandRank where
  cat : ℕ
  t1 : ℕ
  t2 : ℕ
  t3 : ℕ
  t4 : ℕ
  t5 : ℕ
deriving DecidableEq, Repr

/-- Packing of a field vector into the integer score: 3+ bits of category
above five 4-bit rank fields (shift 20, 16, 12, 8, 4, 0). -/
def pack6 (h : HandRank) : ℕ :=
  h.cat * 2 ^ 20 + h.t1 * 2 ^ 16 + h.t2 * 2 ^ 12 + h.t3 * 2 ^ 8 + h.t4 * 2 ^ 4 + h.t5

/-- Lexicographic strict order on field vectors: category first, then each
tiebreak rank in decreasing order of significance. -/
def rankGt (a b : HandRank) : Prop :=
  b.cat < a.cat ∨ (a.cat = b.cat ∧
    (b.t1 < a.t1 ∨ (a.t1 = b.t1 ∧
      (b.t2 < a.t2 ∨ (a.t2 = b.t2 ∧
        (b.t3 < a.t3 ∨ (a.t3 = b.t3 ∧
          (b.t4 < a.t4 ∨ (a.t4 = b.t4 ∧ b.t5 < a.t5)))))))))

instance (a b : HandRank) : Decidable (rankGt a b) := by
  unfold rankGt; infer_instance

/-- Field bounds under which the packing is order-faithful: each rank field
fits in 4 bits and the category below 16 (ranks are ≤ 12, categories ≤ 8). -/
def inBounds (h : HandRank) : Prop :=
  h.cat ≤ 8 ∧ h.t1 < 16 ∧ h.t2 < 16 ∧ h.t3 < 16 ∧ h.t4 < 16 ∧ h.t5 < 16

/-- The straight scan of the spec: the nine 5-consecutive windows from
Ace-high down to 6-high, then the wheel (ranked 5-high). -/
def straightHighOf (l : List ℕ) : Option ℕ :=
  let mask := rankMask l
  match straightWindows.find? (fun i => (mask &&& sMask i) == sMask i) with
  | some i => some i
  | none => if mask &&& wheelMask = wheelMask then some 3 else none

/-- Modelled from the spec (§4.2): the standard poker ranking of a 7-card
hand as the spec words it — a category in 0..8 followed by the tiebreak
ranks in strictly decreasing order of significance.  Flush detection counts
cards per suit and takes the suit with ≥ 5 members; straight detection
scans the nine windows Ace-high down to 6-high and then the wheel (ranked
5-high, never ace-high); the multiplicity categories classify ranks by
occurrence count, ordered high to low, with kickers the highest remaining
ranks.  Two hands compare under standard ranking exactly as their
`specRank` field vectors compare lexicographically (`rankGt`). -/
def specRank (cards : List ℕ) : HandRank :=
  let ranks := cards.map (fun c => c % 13)
  let suits := cards.map (fun c => c / 13)
  let counts : ℕ → ℕ := fun r => ranks.count r
  match (List.range 4).find? (fun su => decide (5 ≤ suits.count su)) with
  | some fs =>
    let fr := List.insertionSort (fun a b => a ≥ b)
      ((cards.filter (fun c => c / 13 == fs)).map (fun c => c % 13))
    match straightHighOf fr with
    | some i => ⟨8, i, 0, 0, 0, 0⟩
    | none => ⟨5, fr.getD 0 0, fr.getD 1 0, fr.getD 2 0, fr.getD 3 0, fr.getD 4 0⟩
  | none =>
    match straightHighOf ranks with
    | some i => ⟨4, i, 0, 0, 0, 0⟩
    | none =>
      let quads := descRanks.filter (fun r => counts r == 4)
      let trips := descRanks.filter (fun r => counts r == 3)
      let pairs := descRanks.filter (fun r => counts r == 2)
      if quads ≠ [] then
        ⟨7, quads.headD 0,
          (descRanks.find? (fun r => r != quads.headD 0 && counts r != 0)).getD 0,
          0, 0, 0⟩
      else if trips ≠ [] ∧ (2 ≤ trips.length ∨ pairs ≠ []) then
        ⟨6, trips.headD 0, max (trips.getD 1 0) (pairs.headD 0), 0, 0, 0⟩
      else if trips.length = 1 then
        let kickers := (descRanks.filter
          (fun r => r != trips.headD 0 && counts r != 0)).take 2
        ⟨3, trips.headD 0, kickers.getD 0 0, kickers.getD 1 0, 0, 0⟩
      else if 2 ≤ pairs.length then
        ⟨2, pairs.headD 0, pairs.getD 1 0,
          (descRanks.find? (fun r =>
            r != pairs.headD 0 && r != pairs.getD 1 0 && counts r != 0)).getD 0,
          0, 0⟩
      else if pairs.length = 1 then
        let kickers := (descRanks.filter
          (fun r => r != pairs.headD 0 && counts r != 0)).take 3
        ⟨1, pairs.headD 0, kickers.getD 0 0, kickers.getD 1 0, kickers.getD 2 0, 0⟩
      else
        let kickers := (descRanks.filter (fun r => counts r != 0)).take 5
        ⟨0, kickers.getD 0 0, kickers.getD 1 0, kickers.getD 2 0,
          kickers.getD 3 0, kickers.getD 4 0⟩

/-- The ranks of a hand's cards of suit `s` (the flush-suit cards). -/
def flushCards (D : List ℕ) (s : ℕ) : List ℕ :=
  (D.filter (fun c => c / 13 == s)).map (fun c => c % 13)

/-! ### Concrete hands used by the spec's category-ordering property -/

/-- `['As','Ks','Qs','Js','Ts','2d','3d']` — royal flush plus junk. -/
def handA : List ℕ := ["As", "Ks", "Qs", "Js", "Ts", "2d", "3d"].map cardToInt

/-- `['As','Ad','Ah','Ac','2s','3d','4c']` — quad aces. -/
def handB : List ℕ := ["As", "Ad", "Ah", "Ac", "2s", "3d", "4c"].map cardToInt

/-- `['As','Ad','Ah','Ks','Kd','3d','4c']` — aces full of kings. -/
def handC : List ℕ := ["As", "Ad", "Ah", "Ks", "Kd", "3d", "4c"].map cardToInt

/-! ### Betting engine (`match_engine.py`)

Chip amounts are rationals (the source's floats are exact on the dyadic
amounts that occur).  The global `random` module is modelled as a
deterministic seeded PRNG: after `random.seed(n)`, the value of the k-th
draw is a function of `(n, k)` only, supplied by explicit parameter
functions (`RandFuns`); `RngState` is the module's hidden state. -/

/-- `match_engine.GameConfig` with its defaults. -/
structure GameConfig where
  small_blind : ℚ := 1/2
  big_blind : ℚ := 1
  starting_stack : ℚ := 200

/-- `burn_knobs.BurnState` (opaque to the engine; only passed through). -/
structure BurnState where
  range_distortion : ℚ
  action_entropy : ℚ
  ev_floor : ℚ

/-- `strategies.base.InfoSet`. -/
structure InfoSet where
  hole_cards : List String
  community_cards : List String
  action_history : List String
  position : String

/-- `strategies.base.StateFeatures`. -/
structure StateFeatures where
  pot_size : ℚ
  stack_size : ℚ
  street : String
  to_call : ℚ
  valid_actions : List String

/-- The action keys of the distributions the engine consumes: the three
standard keys, plus `other` for any unrecognized dictionary key a strategy
could return (such a key matches none of the engine's `if action ==`
branches). -/
inductive Act
  | fold
  | call
  | raise
  | other
deriving DecidableEq, Repr

/-- A strategy as an oracle: Python strategies are arbitrary (possibly
stateful) objects, so `get_action` is modelled as an arbitrary function of
a global query counter together with the observation the engine passes in.
Quantifying over all such oracles covers every concrete strategy. -/
def StratOracle : Type :=
  ℕ → InfoSet → StateFeatures → BurnState → List (Act × ℚ)

/-- Modelled from the spec / the Python standard library: `random` is a
deterministic PRNG, so after `random.seed(n)` its k-th draw is a function
of `(n, k)` only.  `flt n k` is the value of the `random.random()` call at
draw position k, `below n k b` the `_randbelow(b)` draw `random.shuffle`
makes at position k. -/
structure RandFuns where
  flt : ℤ → ℕ → ℚ
  below : ℤ → ℕ → ℕ → ℕ

/-- The `random` module's state: the last seed and the draw position. -/
structure RngState where
  seedv : ℤ
  pos : ℕ
deriving DecidableEq, Repr

/-- `match_engine.INT_TO_RANK`. -/
def INT_TO_RANK : List String :=
  ["2", "3", "4", "5", "6", "7", "8", "9", "T", "J", "Q", "K", "A"]

/-- `match_engine.INT_TO_SUIT`. -/
def INT_TO_SUIT : List String := ["s", "h", "d", "c"]

/-- `match_engine.int_to_card`. -/
def intToCard (c : ℕ) : String :=
  INT_TO_RANK.getD (c % 13) "" ++ INT_TO_SUIT.getD (c / 13) ""

/-- `match_engine.FastState` (`__slots__`). -/
structure FastState where
  stacks' : Fin 2 → ℚ
  pot : ℚ
  street : ℕ
  board : List ℕ
  hole_cards : Fin 2 → List ℕ
  active_player : Fin 2
  bets : Fin 2 → ℚ
  folded : Bool
  hand_complete : Bool

/-- `FastState.__init__`. -/
def FastState.mkInit (starting_stack : ℚ) : FastState :=
  ⟨fun _ => starting_stack, 0, 0, [], fun _ => [], 0, fun _ => 0, false, false⟩

/-- `FastState.reset`: fresh stacks, blinds posted (button posts the small
blind), button acts first preflop.  `hole_cards` is not touched (the caller
overwrites it right after, as `play_hand` does). -/
def FastState.reset (s : FastState) (sb bb : ℚ) (btn_idx : Fin 2)
    (starting_stack : ℚ) : FastState :=
  if btn_idx = 0 then
    { s with
      stacks' := fun i => if i = 0 then starting_stack - sb else starting_stack - bb,
      pot := sb + bb, street := 0, board := [],
      bets := fun i => if i = 0 then sb else bb,
      active_player := 0, folded := false, hand_complete := false }
  else
    { s with
      stacks' := fun i => if i = 1 then starting_stack - sb else starting_stack - bb,
      pot := sb + bb, street := 0, board := [],
      bets := fun i => if i = 1 then sb else bb,
      active_player := 1, folded := false, hand_complete := false }

/-- The `x[i], x[j] = x[j], x[i]` swap of `random.shuffle`. -/
def deckSwap (l : List ℕ) (i j : ℕ) : List ℕ :=
  (l.set i (l.getD j 0)).set j (l.getD i 0)

/-- `random.shuffle` (Fisher-Yates): for i from len-1 down to 1, draw
j = `_randbelow(i+1)` and swap positions i and j. -/
def pyShuffle (R : RandFuns) (rng : RngState) (l : List ℕ) : List ℕ × RngState :=
  ((List.range' 1 (l.length - 1)).reverse).foldl
    (fun (acc : List ℕ × RngState) i =>
      let j := R.below acc.2.seedv acc.2.pos (i + 1)
      (deckSwap acc.1 i j, ⟨acc.2.seedv, acc.2.pos + 1⟩))
    (l, rng)

/-- `max(probs, key=probs.get)`: the first key of maximal weight, in the
dictionary's (insertion) order. -/
def argmaxKey : List (Act × ℚ) → Act
  | [] => Act.call
  | x :: t => (t.foldl (fun b y => if b.2 < y.2 then y else b) x).1

/-- The cumulative-weight sampling loop of `_run_street`: walk the items
accumulating weights; select the first whose running total reaches the
draw `r`; keep `sel` (the argmax) if the total never reaches `r`. -/
def sampleLoop (r : ℚ) : ℚ → Act → List (Act × ℚ) → Act
  | _, sel, [] => sel
  | cum, sel, (a, p) :: t =>
    let cum' := cum + p
    if r ≤ cum' then a else sampleLoop r cum' sel t

/-- The action-selection block of `_run_street`: fall back to
`{'call': 1.0}` when the returned mapping is empty, take the argmax as the
default, then sample by raw cumulative weights against the uniform draw. -/
def engineAction (probs0 : List (Act × ℚ)) (r : ℚ) : Act :=
  let probs := if probs0 = [] then [(Act.call, 1)] else probs0
  sampleLoop r 0 (argmaxKey probs) probs

/-- Modelled from the spec (§6): "weights need not be pre-normalized (the
engine normalizes before sampling)" — divide every weight by the total,
then sample from the normalized distribution with the same uniform draw. -/
def normalizedAction (probs : List (Act × ℚ)) (r : ℚ) : Act :=
  let total := (probs.map (fun p => p.2)).sum
  let nrm := probs.map (fun p => (p.1, p.2 / total))
  sampleLoop r 0 (argmaxKey nrm) nrm

/-- The fold branch of `_run_street`: hand terminal, entire pot to the
non-folding player. -/
def foldApply (s : FastState) : FastState :=
  let opp := 1 - s.active_player
  { s with folded := true, hand_complete := true,
           stacks' := Function.update s.stacks' opp (s.stacks' opp + s.pot) }

/-- The call branch of `_run_street`: check when nothing to call; otherwise
match the opponent's wager, with the all-in partial-call refund when the
amount exceeds the acting player's stack. -/
def callApply (s : FastState) : FastState :=
  let p := s.active_player
  let opp := 1 - p
  let to_call := s.bets opp - s.bets p
  if to_call = 0 then s
  else
    let st1 : FastState × ℚ :=
      if s.stacks' p < to_call then
        let actual_call := s.stacks' p
        let excess := to_call - actual_call
        ({ s with bets := Function.update s.bets opp (s.bets opp - excess),
                  stacks' := Function.update s.stacks' opp (s.stacks' opp + excess),
                  pot := s.pot - excess }, actual_call)
      else (s, to_call)
    let s1 := st1.1
    let amount := st1.2
    { s1 with bets := Function.update s1.bets p (s1.bets p + amount),
              stacks' := Function.update s1.stacks' p (s1.stacks' p - amount),
              pot := s1.pot + amount }

/-- The raise branch of `_run_street`: pot-sized raise over the call,
capped at the stack; if that does not exceed the bare call it degrades to
the partial-call logic.  The boolean reports whether a genuine raise
happened (`last_aggressor` was set — which `_run_street` never reads in a
behavior-relevant way, both its return branches being identical). -/
def raiseApply (s : FastState) : FastState × Bool :=
  let p := s.active_player
  let opp := 1 - p
  let to_call := s.bets opp - s.bets p
  let amount0 := to_call + s.pot
  let amount := if s.stacks' p < amount0 then s.stacks' p else amount0
  if amount ≤ to_call then
    let actual_call := amount
    let excess := to_call - actual_call
    let s1 := { s with bets := Function.update s.bets opp (s.bets opp - excess),
                       stacks' := Function.update s.stacks' opp (s.stacks' opp + excess),
                       pot := s.pot - excess }
    ({ s1 with bets := Function.update s1.bets p (s1.bets p + actual_call),
               stacks' := Function.update s1.stacks' p (s1.stacks' p - actual_call),
               pot := s1.pot + actual_call }, false)
  else
    ({ s with bets := Function.update s.bets p (s.bets p + amount),
              stacks' := Function.update s.stacks' p (s.stacks' p - amount),
              pot := s.pot + amount }, true)

/-- The `InfoSet` `_run_street` constructs for the acting player. -/
def mkInfoSet (s : FastState) (p btn_idx : Fin 2) : InfoSet :=
  { hole_cards := (s.hole_cards p).map intToCard,
    community_cards := s.board.map intToCard,
    action_history := [],
    position := if p = btn_idx then "BTN" else "BB" }

/-- The `StateFeatures` `_run_street` constructs for the acting player. -/
def mkFeatures (s : FastState) (p : Fin 2) (to_call : ℚ) : StateFeatures :=
  { pot_size := s.pot, stack_size := s.stacks' p,
    street := if s.street = 0 then "preflop" else "flop",
    to_call := to_call, valid_actions := ["fold", "call", "raise"] }

/-- `FastPokerEngine._run_street`, as a fueled loop (Python's `while True`
need not terminate against adversarial strategies; `none` is the
fuel-exhausted case).  State threads the betting state, the PRNG state and
the strategy query counter; `first_action` is the loop flag of the source.
The source's `last_aggressor` variable is dead (both return branches that
consult it do the same thing) and is omitted. -/
def runStreet (R : RandFuns) (P : Fin 2 → StratOracle) (burn : Fin 2 → BurnState)
    (btn_idx : Fin 2) :
    ℕ → FastState → RngState → ℕ → Bool → Option (FastState × RngState × ℕ)
  | 0, _, _, _, _ => none
  | fuel + 1, s, rng, qc, first_action =>
    if ¬ first_action ∧ s.bets 0 = s.bets 1 then some (s, rng, qc)
    else
      let p := s.active_player
      let opp := 1 - p
      let to_call := s.bets opp - s.bets p
      let info := mkInfoSet s p btn_idx
      let feats := mkFeatures s p to_call
      let probs := P p qc info feats (burn p)
      let r := R.flt rng.seedv rng.pos
      let rng1 : RngState := ⟨rng.seedv, rng.pos + 1⟩
      match engineAction probs r with
      | Act.fold => some (foldApply s, rng1, qc + 1)
      | Act.call =>
        let s1 := { callApply s with active_player := opp }
        if 400 < s1.pot then some (s1, rng1, qc + 1)
        else runStreet R P burn btn_idx fuel s1 rng1 (qc + 1) false
      | Act.raise =>
        let s1 := { (raiseApply s).1 with active_player := opp }
        if 400 < s1.pot then some (s1, rng1, qc + 1)
        else runStreet R P burn btn_idx fuel s1 rng1 (qc + 1) false
      | Act.other =>
        let s1 := { s with active_player := opp }
        if 400 < s1.pot then some (s1, rng1, qc + 1)
        else runStreet R P burn btn_idx fuel s1 rng1 (qc + 1) false

/-- The showdown block of `play_hand`: evaluate both 7-card hands, award
the pot to the higher score, split on ties. -/
def showdown (s : FastState) : FastState :=
  let score0 := evaluateHand (s.hole_cards 0 ++ s.board)
  let score1 := evaluateHand (s.hole_cards 1 ++ s.board)
  if score1 < score0 then
    { s with stacks' := Function.update s.stacks' 0 (s.stacks' 0 + s.pot),
             hand_complete := true }
  else if score0 < score1 then
    { s with stacks' := Function.update s.stacks' 1 (s.stacks' 1 + s.pot),
             hand_complete := true }
  else
    { s with stacks' := fun i => s.stacks' i + s.pot / 2, hand_complete := true }

/-- The street-advance block of `play_hand`: bump the street, clear the
wagers, deal flop/turn/river from the deck cursor, out-of-position player
acts first post-flop. -/
def advanceStreet (s : FastState) (deck : List ℕ) (deck_idx : ℕ)
    (btn_idx : Fin 2) : FastState × ℕ :=
  let s1 := { s with street := s.street + 1, bets := fun _ => 0 }
  let sd : FastState × ℕ :=
    if s1.street = 1 then
      ({ s1 with board := s1.board ++ (deck.drop deck_idx).take 3 }, deck_idx + 3)
    else if s1.street = 2 then
      ({ s1 with board := s1.board ++ (deck.drop deck_idx).take 1 }, deck_idx + 1)
    else if s1.street = 3 then
      ({ s1 with board := s1.board ++ (deck.drop deck_idx).take 1 }, deck_idx + 1)
    else (s1, deck_idx)
  ({ sd.1 with active_player := if btn_idx = 0 then 1 else 0 }, sd.2)

/-- The engine-level data `play_hand` reads: the persistent (shuffled in
place) deck, the base seed and the blinds/stack configuration. -/
structure EngineCtx where
  deck : List ℕ
  base_seed : ℤ
  sb : ℚ
  bb : ℚ
  stack : ℚ

/-- `FastPokerEngine.__init__`: fresh 0..51 deck, base seed 42. -/
def engineInit (cfg : GameConfig) : EngineCtx :=
  ⟨List.range 52, 42, cfg.small_blind, cfg.big_blind, cfg.starting_stack⟩

/-- The `while not state.hand_complete` loop of `play_hand`: run a street;
stop on completion; at the close of the river betting run the showdown;
otherwise advance the street and deal.  The outer fuel only guards the
translation of the `while`; the loop body strictly increases the street, so
any fuel above 4 behaves identically. -/
def playLoop (R : RandFuns) (P : Fin 2 → StratOracle) (burn : Fin 2 → BurnState)
    (btn_idx : Fin 2) (deck : List ℕ) (innerFuel : ℕ) :
    ℕ → FastState → RngState → ℕ → ℕ → Option (FastState × RngState × ℕ)
  | 0, _, _, _, _ => none
  | fuel + 1, s, rng, qc, deck_idx =>
    if s.hand_complete then some (s, rng, qc)
    else
      match runStreet R P burn btn_idx innerFuel s rng qc true with
      | none => none
      | some (s1, rng1, qc1) =>
        if s1.hand_complete then some (s1, rng1, qc1)
        else if s1.street = 3 then some (showdown s1, rng1, qc1)
        else
          let sd := advanceStreet s1 deck deck_idx btn_idx
          playLoop R P burn btn_idx deck innerFuel fuel sd.1 rng1 qc1 sd.2

/-- The shuffled deck `play_hand` deals from: seed the PRNG with
`base_seed + hand_id`, then shuffle the engine's current deck in place. -/
def shuffledDeck (R : RandFuns) (eng : EngineCtx) (hand_id : ℕ) : List ℕ :=
  (pyShuffle R ⟨eng.base_seed + hand_id, 0⟩ eng.deck).1

/-- `FastPokerEngine.play_hand`: reset the state, seed and shuffle, deal
the hole cards, then run the street loop.  Returns the engine (whose deck
is now the shuffled one) and the final state; `none` only when the street
loop's fuel ran out (a hand that did not complete). -/
def playHand (R : RandFuns) (P : Fin 2 → StratOracle) (burn : Fin 2 → BurnState)
    (eng : EngineCtx) (hand_id : ℕ) (btn_idx : Fin 2) (innerFuel : ℕ) :
    Option (EngineCtx × FastState) :=
  let s0 := (FastState.mkInit eng.stack).reset eng.sb eng.bb btn_idx eng.stack
  let rng0 : RngState := ⟨eng.base_seed + hand_id, 0⟩
  let sh := pyShuffle R rng0 eng.deck
  let deck1 := sh.1
  let s1 := { s0 with hole_cards := fun i =>
    if i = 0 then [deck1.getD 0 0, deck1.getD 1 0]
    else [deck1.getD 2 0, deck1.getD 3 0] }
  match playLoop R P burn btn_idx deck1 innerFuel 5 s1 sh.2 0 4 with
  | none => none
  | some (sf, _, _) => some ({ eng with deck := deck1 }, sf)

/-! ### Monte Carlo equity estimator (`strategies/equity_calculator.py`) -/

/-- The unseen-card population `calculate_equity` samples from: the 52-card
deck minus the visible cards (hero hole cards and existing board). -/
def equityDeck (hole board : List ℕ) : List ℕ :=
  (List.range 52).filter (fun c => decide (c ∉ hole ++ board))

/-- The per-iteration sample size: 2 opponent hole cards plus the missing
board cards. -/
def equitySampleSize (board : List ℕ) : ℕ := 2 + (5 - board.length)

/-- `EquityCalculator.calculate_equity` (integer-card path; the string
branch only converts tokens first).  `random.sample` is an oracle
`sample it population k`: the draw of iteration `it` from `population`
requesting `k` cards. -/
def calculateEquity (sample : ℕ → List ℕ → ℕ → List ℕ)
    (hole board : List ℕ) (iterations : ℕ) : ℚ :=
  let deck := equityDeck hole board
  let ws := (List.range iterations).foldl
    (fun (ws : ℕ × ℕ) it =>
      let drawn := sample it deck (equitySampleSize board)
      let opp_cards := drawn.take 2
      let runout := drawn.drop 2
      let full_board := board ++ runout
      let my_score := evaluateHand (hole ++ full_board)
      let opp_score := evaluateHand (opp_cards ++ full_board)
      if opp_score < my_score then (ws.1 + 1, ws.2)
      else if my_score = opp_score then (ws.1, ws.2 + 1)
      else ws)
    (0, 0)
  ((ws.1 : ℚ) + (ws.2 : ℚ) / 2) / (iterations : ℚ)

/-- The final `(wins, splits)` counter pair of `calculate_equity`'s
iteration loop, on its own. -/
def equityCounts (sample : ℕ → List ℕ → ℕ → List ℕ)
    (hole board : List ℕ) (iterations : ℕ) : ℕ × ℕ :=
  (List.range iterations).foldl
    (fun (ws : ℕ × ℕ) it =>
      let drawn := sample it (equityDeck hole board) (equitySampleSize board)
      let opp_cards := drawn.take 2
      let runout := drawn.drop 2
      let full_board := board ++ runout
      let my_score := evaluateHand (hole ++ full_board)
      let opp_score := evaluateHand (opp_cards ++ full_board)
      if opp_score < my_score then (ws.1 + 1, ws.2)
      else if my_score = opp_score then (ws.1, ws.2 + 1)
      else ws)
    (0, 0)

/-! ### Persisted preflop-table loaders -/

/-- A loaded per-hand action-weight record. -/
structure ActionWeights where
  wFold : ℚ
  wCall : ℚ
  wRaise : ℚ
deriving DecidableEq, Repr

/-- Python dict assignment `lut[hid] = v`: overwrite in place or append. -/
def lutInsert (lut : List (ℕ × ActionWeights)) (k : ℕ) (v : ActionWeights) :
    List (ℕ × ActionWeights) :=
  if lut.any (fun q => q.1 == k) then
    lut.map (fun q => if q.1 == k then (k, v) else q)
  else lut ++ [(k, v)]

/-- The exceptions the loaders can raise: `FileNotFoundError` from `open`,
`struct.error` from a short `unpack`, `AssertionError` from the magic
assert. -/
inductive LoadErr
  | fileNotFound
  | structError
  | assertError
deriving DecidableEq, Repr

/-- The magic bytes `b"GTOB"`. -/
def gtobMagic : List ℕ := [71, 84, 79, 66]

/-- The record loop of `GTOBTable._load`: 5-byte records `<HBBB`
(hand id, three 8-bit weights normalized by 255); a short read breaks out
keeping what was loaded; an all-zero record is skipped. -/
def gtobRecords : ℕ → List ℕ → List (ℕ × ActionWeights) → List (ℕ × ActionWeights)
  | 0, _, lut => lut
  | n + 1, bytes, lut =>
    match bytes with
    | b0 :: b1 :: b2 :: b3 :: b4 :: rest =>
      let hid := b0 + 256 * b1
      let total := b2 + b3 + b4
      if total = 0 then gtobRecords n rest lut
      else gtobRecords n rest
        (lutInsert lut hid ⟨(b2 : ℚ) / 255, (b3 : ℚ) / 255, (b4 : ℚ) / 255⟩)
    | _ => lut

/-- `GTOBTable._load`: header `<4sHIH` (magic, version, record count,
padding) read without any exception handling — a missing file or a short
header raises, and the `assert magic == b"GTOB"` raises on bad magic.
The file is `none` when missing, otherwise its bytes. -/
def gtobTableLoad (file : Option (List ℕ)) :
    Except LoadErr (List (ℕ × ActionWeights)) :=
  match file with
  | none => .error .fileNotFound
  | some bytes =>
    if bytes.length < 12 then .error .structError
    else
      let magic := bytes.take 4
      let count := bytes.getD 6 0 + 256 * bytes.getD 7 0 +
        65536 * bytes.getD 8 0 + 16777216 * bytes.getD 9 0
      if magic ≠ gtobMagic then .error .assertError
      else .ok (gtobRecords count (bytes.drop 12) [])

/-- The record loop of `RMBALL._load_gtob_preflop_v1`: 8-byte records
`<HHHH`; a short read raises `struct.error` (caught by the caller); a
zero-total record maps to pure fold, otherwise weights are normalized by
their total. -/
def rmballRecords : ℕ → List ℕ → List (ℕ × ActionWeights) →
    Except LoadErr (List (ℕ × ActionWeights))
  | 0, _, lut => .ok lut
  | n + 1, bytes, lut =>
    match bytes with
    | b0 :: b1 :: b2 :: b3 :: b4 :: b5 :: b6 :: b7 :: rest =>
      let hid := b0 + 256 * b1
      let pf := b2 + 256 * b3
      let pc := b4 + 256 * b5
      let pr := b6 + 256 * b7
      let total := pf + pc + pr
      if 0 < total then
        rmballRecords n rest (lutInsert lut hid
          ⟨(pf : ℚ) / (total : ℚ), (pc : ℚ) / (total : ℚ), (pr : ℚ) / (total : ℚ)⟩)
      else rmballRecords n rest (lutInsert lut hid ⟨1, 0, 0⟩)
    | _ => .error .structError

/-- The body of `RMBALL._load_gtob_preflop_v1`'s `try` block: magic check
(early empty return on mismatch), `<H` version, one type byte (a plain
`read`, no unpack, so a short file does not raise here), `<H` record
count, then the record loop. -/
def rmballLoadAux (bytes : List ℕ) : Except LoadErr (List (ℕ × ActionWeights)) :=
  if bytes.take 4 ≠ gtobMagic then .ok []
  else
    let r1 := bytes.drop 4
    if r1.length < 2 then .error .structError
    else
      let r3 := (r1.drop 2).drop 1
      if r3.length < 2 then .error .structError
      else
        let count := r3.getD 0 0 + 256 * r3.getD 1 0
        rmballRecords count (r3.drop 2) []

/-- `RMBALL._load_gtob_preflop_v1`: the whole body is wrapped in
`try/except Exception: return {}`, so a missing file (`open` raising) and
every parse error degrade to the empty table. -/
def rmballLoad (file : Option (List ℕ)) : List (ℕ × ActionWeights) :=
  match file with
  | none => []
  | some bytes =>
    match rmballLoadAux bytes with
    | .ok lut => lut
    | .error _ => []

/-! ### Concrete data for witnesses and counterexamples -/

/-- A degenerate but valid instantiation of the PRNG model: every draw is
zero.  (The refuted replay claim fails for the actual Mersenne Twister for
the same structural reason it fails here: the shuffle permutes the current
deck in place, so its result depends on the deck's prior order.) -/
def R0 : RandFuns := ⟨fun _ _ => 0, fun _ _ _ => 0⟩

/-- A zero burn state, as the benchmark harness constructs. -/
def B0 : BurnState := ⟨0, 0, 0⟩

/-- A strategy that always folds. -/
def foldStrat : StratOracle := fun _ _ _ _ => [(Act.fold, 1)]

/-- A strategy that always checks/calls. -/
def callStrat : StratOracle := fun _ _ _ _ => [(Act.call, 1)]

/-- An engine built from the default configuration. -/
def eng0 : EngineCtx := engineInit {}

/-- A mid-street state in which the acting player faces a call of 50 with
a stack of only 30: pot 100, wagers 0 versus 50. -/
def c4state : FastState :=
  ⟨fun i => if i = 0 then 30 else 100, 100, 1, [], fun _ => [], 0,
   fun i => if i = 0 then 0 else 50, false, false⟩

/-- An unsuited wheel hand: A,2,3,4,5 plus junk, no flush. -/
def wheelHand : List ℕ := ["As", "2h", "3d", "4c", "5s", "9h", "Kd"].map cardToInt

/-- A 6-high straight hand, no flush, no higher straight. -/
def sixHighHand : List ℕ := ["2s", "3h", "4d", "5c", "6s", "Kh", "9d"].map cardToInt

/-- A pair hand (category 1): non-straight, non-flush, below trips. -/
def pairHand : List ℕ := ["As", "Ad", "Kh", "Qc", "2s", "3d", "7c"].map cardToInt

/-- A wheel straight flush: A,2,3,4,5 of spades plus junk. -/
def wheelSFHand : List ℕ := ["As", "2s", "3s", "4s", "5s", "9h", "Kd"].map cardToInt

/-- A 7-card list with a duplicated ace: malformed input for the
evaluator's contract. -/
def dupAce7 : List ℕ := ["As", "As", "Kh", "Qc", "2s", "3d", "7c"].map cardToInt

/-- A 3-card input on which Python's `evaluate_hand` raises `IndexError`
(trips branch with no kickers). -/
def shortHand : List ℕ := ["As", "Ad", "Ah"].map cardToInt

/-- The engine context after one unrelated hand (hand 1) on the fresh
engine: `play_hand` shuffles the persistent deck in place, so the engine
keeps hand 1's shuffled deck. -/
def eng1 : EngineCtx := { eng0 with deck := shuffledDeck R0 eng0 1 }

/-- Twelve bytes whose magic field is not `b"GTOB"`. -/
def badMagicBytes : List ℕ := [0, 0, 0, 0, 0, 0, 0, 0, 0, 0, 0, 0]

/-- A GTOB file announcing two records but containing only one: good
header (version 1, count 2), then a single complete 5-byte record. -/
def truncatedGtob : List ℕ :=
  gtobMagic ++ [1, 0] ++ [2, 0, 0, 0] ++ [0, 0] ++ [5, 0, 10, 20, 30]

/-- An RMBALL-format file announcing two records but containing one full
8-byte record and then a short read: good magic, version 1, one type byte,
count 2, one record, two stray bytes. -/
def truncatedRmball : List ℕ :=
  gtobMagic ++ [1, 0] ++ [0] ++ [2, 0] ++ [5, 0, 1, 0, 2, 0, 3, 0] ++ [9, 9]

/-! ## Lemmas and theorems -/

/-! ### Bit-packing arithmetic -/

theorem fin2_cases (p : Fin 2) : p = 0 ∨ p = 1 := by omega

theorem lor_mul_add : ∀ (n y x : ℕ), x < 2 ^ n → (y * 2 ^ n) ||| x = y * 2 ^ n + x := by
  intro n
  induction n with
  | zero =>
    intro y x hx
    have hx0 : x = 0 := by omega
    subst hx0
    simp
  | succ n ih =>
    intro y x hx
    have hdecomp : Nat.bit x.bodd x.div2 = x := Nat.bit_decomp x
    have hdiv : x.div2 = x / 2 := Nat.div2_val x
    have hpow : (2 : ℕ) ^ (n + 1) = 2 ^ n * 2 := by rw [pow_succ]
    have hxd : x / 2 < 2 ^ n := by omega
    have hyb : y * 2 ^ (n + 1) = Nat.bit false (y * 2 ^ n) := by
      rw [Nat.bit_val, hpow]
      simp
      ring
    have hbv := Nat.bit_val x.bodd x.div2
    rw [hdecomp, hdiv] at hbv
    calc (y * 2 ^ (n + 1)) ||| x
        = Nat.bit false (y * 2 ^ n) ||| Nat.bit x.bodd x.div2 := by rw [← hyb, hdecomp]
      _ = Nat.bit (false || x.bodd) ((y * 2 ^ n) ||| x.div2) := Nat.lor_bit _ _ _ _
      _ = Nat.bit x.bodd ((y * 2 ^ n) ||| (x / 2)) := by rw [Bool.false_or, hdiv]
      _ = Nat.bit x.bodd (y * 2 ^ n + x / 2) := by rw [ih y (x / 2) hxd]
      _ = y * 2 ^ (n + 1) + x := by
          rw [Nat.bit_val, hpow]
          generalize x.bodd.toNat = bb at hbv ⊢
          generalize hm : x / 2 = m at hbv ⊢
          rw [hbv]
          ring

theorem pack_cat1 (c t1 : ℕ) (h1 : t1 < 16) :
    (c <<< 20) ||| (t1 <<< 16) = c * 2 ^ 20 + t1 * 2 ^ 16 := by
  rw [Nat.shiftLeft_eq, Nat.shiftLeft_eq]
  apply lor_mul_add 20 c (t1 * 2 ^ 16)
  have e1 : (2 : ℕ) ^ 16 = 65536 := by norm_num
  have e2 : (2 : ℕ) ^ 20 = 1048576 := by norm_num
  omega

theorem pack_cat2 (c t1 t2 : ℕ) (h1 : t1 < 16) (h2 : t2 < 16) :
    (c <<< 20) ||| (t1 <<< 16) ||| (t2 <<< 12)
      = c * 2 ^ 20 + t1 * 2 ^ 16 + t2 * 2 ^ 12 := by
  rw [pack_cat1 c t1 h1, Nat.shiftLeft_eq]
  have e : c * 2 ^ 20 + t1 * 2 ^ 16 = (c * 2 ^ 4 + t1) * 2 ^ 16 := by ring
  rw [e, lor_mul_add 16 _ _ (by
    have e1 : (2 : ℕ) ^ 12 = 4096 := by norm_num
    have e2 : (2 : ℕ) ^ 16 = 65536 := by norm_num
    omega)]

theorem pack_cat3 (c t1 t2 t3 : ℕ) (h1 : t1 < 16) (h2 : t2 < 16) (h3 : t3 < 16) :
    (c <<< 20) ||| (t1 <<< 16) ||| (t2 <<< 12) ||| (t3 <<< 8)
      = c * 2 ^ 20 + t1 * 2 ^ 16 + t2 * 2 ^ 12 + t3 * 2 ^ 8 := by
  rw [pack_cat2 c t1 t2 h1 h2, Nat.shiftLeft_eq]
  have e : c * 2 ^ 20 + t1 * 2 ^ 16 + t2 * 2 ^ 12
      = (c * 2 ^ 8 + t1 * 2 ^ 4 + t2) * 2 ^ 12 := by ring
  rw [e, lor_mul_add 12 _ _ (by
    have e1 : (2 : ℕ) ^ 8 = 256 := by norm_num
    have e2 : (2 : ℕ) ^ 12 = 4096 := by norm_num
    omega)]

theorem pack_cat4 (c t1 t2 t3 t4 : ℕ)
    (h1 : t1 < 16) (h2 : t2 < 16) (h3 : t3 < 16) (h4 : t4 < 16) :
    (c <<< 20) ||| (t1 <<< 16) ||| (t2 <<< 12) ||| (t3 <<< 8) ||| (t4 <<< 4)
      = c * 2 ^ 20 + t1 * 2 ^ 16 + t2 * 2 ^ 12 + t3 * 2 ^ 8 + t4 * 2 ^ 4 := by
  rw [pack_cat3 c t1 t2 t3 h1 h2 h3, Nat.shiftLeft_eq]
  have e : c * 2 ^ 20 + t1 * 2 ^ 16 + t2 * 2 ^ 12 + t3 * 2 ^ 8
      = (c * 2 ^ 12 + t1 * 2 ^ 8 + t2 * 2 ^ 4 + t3) * 2 ^ 8 := by ring
  rw [e, lor_mul_add 8 _ _ (by
    have e1 : (2 : ℕ) ^ 4 = 16 := by norm_num
    have e2 : (2 : ℕ) ^ 8 = 256 := by norm_num
    omega)]

theorem pack_cat5 (c t1 t2 t3 t4 t5 : ℕ)
    (h1 : t1 < 16) (h2 : t2 < 16) (h3 : t3 < 16) (h4 : t4 < 16) (h5 : t5 < 16) :
    (c <<< 20) ||| (t1 <<< 16) ||| (t2 <<< 12) ||| (t3 <<< 8) ||| (t4 <<< 4) ||| t5
      = c * 2 ^ 20 + t1 * 2 ^ 16 + t2 * 2 ^ 12 + t3 * 2 ^ 8 + t4 * 2 ^ 4 + t5 := by
  rw [pack_cat4 c t1 t2 t3 t4 h1 h2 h3 h4]
  have e : c * 2 ^ 20 + t1 * 2 ^ 16 + t2 * 2 ^ 12 + t3 * 2 ^ 8 + t4 * 2 ^ 4
      = (c * 2 ^ 16 + t1 * 2 ^ 12 + t2 * 2 ^ 8 + t3 * 2 ^ 4 + t4) * 2 ^ 4 := by ring
  rw [e, lor_mul_add 4 _ _ (by omega)]

theorem pack6_lt_iff (a b : HandRank) (ha : inBounds a) (hb : inBounds b) :
    pack6 b < pack6 a ↔ rankGt a b := by
  obtain ⟨ac, a1, a2, a3, a4, a5⟩ := a
  obtain ⟨bc, b1, b2, b3, b4, b5⟩ := b
  simp only [pack6, rankGt, inBounds] at *
  norm_num at *
  omega

theorem pack6_eq_iff (a b : HandRank) (ha : inBounds a) (hb : inBounds b) :
    pack6 a = pack6 b ↔ a = b := by
  obtain ⟨ac, a1, a2, a3, a4, a5⟩ := a
  obtain ⟨bc, b1, b2, b3, b4, b5⟩ := b
  simp only [pack6, inBounds, HandRank.mk.injEq] at *
  norm_num at *
  omega

/-! ### Loop characterizations -/

theorem flushSuitLoop_none (l : List ℕ) :
    ∀ counts : ℕ → ℕ, (∀ t, counts t + l.count t < 5) → flushSuitLoop l counts = none := by
  induction l with
  | nil => intro counts _; rfl
  | cons s rest ih =>
    intro counts h
    have hs := h s
    rw [List.count_cons_self] at hs
    simp only [flushSuitLoop, Function.update_same]
    rw [if_neg (by omega)]
    apply ih
    intro t
    by_cases ht : t = s
    · subst ht
      simp only [Function.update_same]
      omega
    · have hh := h t
      rw [List.count_cons_of_ne ht] at hh
      simp only [Function.update_noteq ht]
      omega

theorem flushSuitLoop_some (l : List ℕ) :
    ∀ (counts : ℕ → ℕ) (s : ℕ), counts s < 5 → 5 ≤ counts s + l.count s →
      (∀ t, t ≠ s → counts t + l.count t < 5) → flushSuitLoop l counts = some s := by
  induction l with
  | nil =>
    intro counts s h1 h2 _
    simp only [List.count_nil] at h2
    omega
  | cons a rest ih =>
    intro counts s h1 h2 h3
    simp only [flushSuitLoop, Function.update_same]
    by_cases has : a = s
    · subst has
      rw [List.count_cons_self] at h2
      by_cases h5 : 5 ≤ counts a + 1
      · rw [if_pos h5]
      · rw [if_neg h5]
        apply ih _ a
        · simp only [Function.update_same]; omega
        · simp only [Function.update_same]; omega
        · intro t ht
          have hh := h3 t ht
          rw [List.count_cons_of_ne ht] at hh
          simp only [Function.update_noteq ht]
          omega
    · have hfire := h3 a has
      rw [List.count_cons_self] at hfire
      rw [if_neg (by omega)]
      apply ih _ s
      · simpa only [Function.update_noteq (by simpa using fun h => has h.symm : ¬ s = a)] using h1
      · rw [List.count_cons_of_ne (by simpa using fun h => has h.symm)] at h2
        simpa only [Function.update_noteq (by simpa using fun h => has h.symm : ¬ s = a)] using h2
      · intro t ht
        by_cases hta : t = a
        · subst hta
          simp only [Function.update_same]
          omega
        · have hh := h3 t ht
          rw [List.count_cons_of_ne hta] at hh
          simp only [Function.update_noteq hta]
          omega

theorem find?_unique {α : Type} (p : α → Bool) {s : α} (hps : p s = true) :
    ∀ l : List α, s ∈ l → (∀ t ∈ l, p t = true → t = s) → l.find? p = some s := by
  intro l
  induction l with
  | nil => intro hmem _; cases hmem
  | cons a t ih =>
    intro hmem huniq
    by_cases hpa : p a = true
    · have ha : a = s := huniq a (List.mem_cons_self a t) hpa
      subst ha
      simp [List.find?_cons, hpa]
    · have hsa : s ≠ a := fun h => hpa (h ▸ hps)
      have hst : s ∈ t := by
        rcases List.mem_cons.mp hmem with h | h
        · exact absurd h hsa
        · exact h
      have hpa' : p a = false := by
        cases hh : p a
        · rfl
        · exact absurd hh hpa
      rw [List.find?_cons, hpa']
      exact ih hst (fun x hx hpx => huniq x (List.mem_cons_of_mem _ hx) hpx)

theorem count_pair_le_length {l : List ℕ} {s t : ℕ} (hst : s ≠ t) :
    l.count s + l.count t ≤ l.length := by
  rw [List.count_eq_countP, List.count_eq_countP,
    List.length_eq_countP_add_countP (fun x => x == s) l]
  have hmono : l.countP (fun x => x == t) ≤
      l.countP (fun a => decide ¬(a == s) = true) := by
    apply List.countP_mono_left
    intro x _ hx
    have : x = t := by simpa using hx
    subst this
    simp
    omega
  omega

theorem rankCountsLoop_eq (l : List ℕ) :
    ∀ (init : ℕ → ℕ) (r : ℕ), rankCountsLoop l init r = init r + l.count r := by
  induction l with
  | nil => intro init r; simp [rankCountsLoop]
  | cons a t ih =>
    intro init r
    show rankCountsLoop t (Function.update init a (init a + 1)) r = _
    rw [ih]
    by_cases h : r = a
    · subst h
      simp only [Function.update_same, List.count_cons_self]
      omega
    · rw [Function.update_noteq h, List.count_cons_of_ne h]

theorem zip_filter_map_eq (l : List ℕ) (fs : ℕ) :
    (((l.map (fun c => c % 13)).zip (l.map (fun c => c / 13))).filter
        (fun p => p.2 == fs)).map (fun p => p.1)
      = (l.filter (fun c => c / 13 == fs)).map (fun c => c % 13) := by
  induction l with
  | nil => rfl
  | cons a t ih =>
    simp only [List.map_cons, List.zip_cons_cons, List.filter_cons]
    by_cases h : (a / 13 == fs) = true
    · simp only [h, if_pos, List.map_cons, ih]
    · simp [h, ih]

theorem flushSuitLoop_eq_find (l : List ℕ) (hlen : l.length ≤ 9)
    (hmem : ∀ s ∈ l, s < 4) :
    flushSuitLoop l (fun _ => 0)
      = (List.range 4).find? (fun su => decide (5 ≤ l.count su)) := by
  by_cases hex : ∃ s, 5 ≤ l.count s
  · obtain ⟨s, hs⟩ := hex
    have hsl : s ∈ l := by
      by_contra h
      rw [List.count_eq_zero_of_not_mem h] at hs
      omega
    have hs4 : s < 4 := hmem s hsl
    have huniq : ∀ t, t ≠ s → l.count t < 5 := by
      intro t hts
      by_contra hge
      push_neg at hge
      have hpair := count_pair_le_length (l := l) (s := s) (t := t)
        (fun h => hts h.symm)
      have hcl := List.count_le_length s l
      omega
    rw [flushSuitLoop_some l (fun _ => 0) s (by simp) (by simpa using hs)
      (fun t ht => by simpa using huniq t ht)]
    rw [find?_unique (fun su => decide (5 ≤ l.count su)) (by simpa using hs)
      (List.range 4) (by simpa using hs4)
      (fun t _ hpt => by
        by_contra hne
        have := huniq t hne
        simp at hpt
        omega)]
  · push_neg at hex
    rw [flushSuitLoop_none l (fun _ => 0)
      (fun t => by have := hex t; simpa using this)]
    rw [List.find?_eq_none.mpr (fun x _ => by
      have := hex x
      simp
      omega)]

theorem mem_descRanks_lt {r : ℕ} (h : r ∈ descRanks) : r < 13 := by
  simp only [descRanks, List.mem_reverse, List.mem_range] at h
  exact h

theorem mem_straightWindows {i : ℕ} (h : i ∈ straightWindows) : 4 ≤ i ∧ i < 13 := by
  simp only [straightWindows, List.mem_reverse, List.mem_range'_1] at h
  omega

theorem getD_mem_or (l : List ℕ) (i d : ℕ) : l.getD i d = d ∨ l.getD i d ∈ l := by
  induction l generalizing i with
  | nil => left; rfl
  | cons a t ih =>
    cases i with
    | zero => right; simp [List.getD]
    | succ n =>
      rcases ih n with h | h
      · left
        simpa [List.getD] using h
      · right
        rw [List.getD_cons_succ]
        exact List.mem_cons_of_mem _ h

theorem headD_mem_or (l : List ℕ) (d : ℕ) : l.headD d = d ∨ l.headD d ∈ l := by
  cases l with
  | nil => left; rfl
  | cons a t => right; simp

theorem find?_getD_mem_or (l : List ℕ) (p : ℕ → Bool) (d : ℕ) :
    (l.find? p).getD d = d ∨ (l.find? p).getD d ∈ l := by
  cases h : l.find? p with
  | none => left; rfl
  | some x =>
    right
    simpa using List.mem_of_find?_eq_some h

theorem getD_lt_16 {l : List ℕ} (hb : ∀ x ∈ l, x < 13) (i : ℕ) : l.getD i 0 < 16 := by
  rcases getD_mem_or l i 0 with h | h
  · omega
  · have := hb _ h
    omega

theorem headD_lt_16 {l : List ℕ} (hb : ∀ x ∈ l, x < 13) : l.headD 0 < 16 := by
  rcases headD_mem_or l 0 with h | h
  · omega
  · have := hb _ h
    omega

theorem find?_getD_lt_16 {l : List ℕ} (hb : ∀ x ∈ l, x < 13) (p : ℕ → Bool) :
    (l.find? p).getD 0 < 16 := by
  rcases find?_getD_mem_or l p 0 with h | h
  · omega
  · have := hb _ h
    omega

theorem descRanks_lt (x : ℕ) (h : x ∈ descRanks) : x < 13 := mem_descRanks_lt h

theorem filter_take_lt {p : ℕ → Bool} {k x : ℕ}
    (h : x ∈ (descRanks.filter p).take k) : x < 13 :=
  mem_descRanks_lt (List.mem_of_mem_filter (List.mem_of_mem_take h))

theorem filter_descRanks_lt {p : ℕ → Bool} {x : ℕ}
    (h : x ∈ descRanks.filter p) : x < 13 :=
  mem_descRanks_lt (List.mem_of_mem_filter h)

theorem sorted_flushRanks_lt (cards : List ℕ) (fs : ℕ) :
    ∀ x ∈ List.insertionSort (fun a b => a ≥ b)
      ((cards.filter (fun c => c / 13 == fs)).map (fun c => c % 13)), x < 13 := by
  intro x hx
  have hx2 := (List.perm_insertionSort (fun a b => a ≥ b) _).mem_iff.mp hx
  obtain ⟨c, _, rfl⟩ := List.mem_map.mp hx2
  omega

theorem range5_fold_pack (fr : List ℕ) (hb : ∀ x ∈ fr, x < 13) :
    (List.range 5).foldl (fun sc i => sc ||| (fr.getD i 0 <<< (16 - 4 * i))) (5 <<< 20)
      = pack6 ⟨5, fr.getD 0 0, fr.getD 1 0, fr.getD 2 0, fr.getD 3 0, fr.getD 4 0⟩ := by
  rw [show List.range 5 = [0, 1, 2, 3, 4] from rfl]
  simp only [List.foldl]
  rw [show (16 - 4 * 0 : ℕ) = 16 from rfl, show (16 - 4 * 1 : ℕ) = 12 from rfl,
    show (16 - 4 * 2 : ℕ) = 8 from rfl, show (16 - 4 * 3 : ℕ) = 4 from rfl,
    show (16 - 4 * 4 : ℕ) = 0 from rfl, Nat.shiftLeft_zero]
  rw [pack_cat5 5 _ _ _ _ _ (getD_lt_16 hb 0) (getD_lt_16 hb 1) (getD_lt_16 hb 2)
    (getD_lt_16 hb 3) (getD_lt_16 hb 4)]
  rfl

theorem enum_fold_pack (ks : List ℕ) (hlen : ks.length ≤ 5) (hb : ∀ x ∈ ks, x < 13) :
    ks.enum.foldl (fun sc p => sc ||| (p.2 <<< (16 - 4 * p.1))) 0
      = pack6 ⟨0, ks.getD 0 0, ks.getD 1 0, ks.getD 2 0, ks.getD 3 0, ks.getD 4 0⟩ := by
  have h16 : ∀ x ∈ ks, x < 16 := fun x hx => by have := hb x hx; omega
  match ks, hlen with
  | [], _ => simp [List.enum, pack6]
  | [k0], _ =>
    have e := pack_cat1 0 k0 (h16 k0 (by simp))
    simp only [Nat.zero_shiftLeft, Nat.zero_or] at e
    simp [List.enum, List.enumFrom, pack6, e]
  | [k0, k1], _ =>
    have e := pack_cat2 0 k0 k1 (h16 k0 (by simp)) (h16 k1 (by simp))
    simp only [Nat.zero_shiftLeft, Nat.zero_or] at e
    simp only [List.enum, List.enumFrom, List.foldl, Nat.zero_or]
    rw [show (16 - 4 * 0 : ℕ) = 16 from rfl, show (16 - 4 * 1 : ℕ) = 12 from rfl]
    try rw [show (16 - 4 * 2 : ℕ) = 8 from rfl]
    try rw [show (16 - 4 * 3 : ℕ) = 4 from rfl]
    try rw [show (16 - 4 * 4 : ℕ) = 0 from rfl, Nat.shiftLeft_zero]
    simp [pack6, e, List.getD_cons_zero, List.getD_cons_succ]
  | [k0, k1, k2], _ =>
    have e := pack_cat3 0 k0 k1 k2 (h16 k0 (by simp)) (h16 k1 (by simp))
      (h16 k2 (by simp))
    simp only [Nat.zero_shiftLeft, Nat.zero_or] at e
    simp only [List.enum, List.enumFrom, List.foldl, Nat.zero_or]
    rw [show (16 - 4 * 0 : ℕ) = 16 from rfl, show (16 - 4 * 1 : ℕ) = 12 from rfl]
    try rw [show (16 - 4 * 2 : ℕ) = 8 from rfl]
    try rw [show (16 - 4 * 3 : ℕ) = 4 from rfl]
    try rw [show (16 - 4 * 4 : ℕ) = 0 from rfl, Nat.shiftLeft_zero]
    simp [pack6, e, List.getD_cons_zero, List.getD_cons_succ]
  | [k0, k1, k2, k3], _ =>
    have e := pack_cat4 0 k0 k1 k2 k3 (h16 k0 (by simp)) (h16 k1 (by simp))
      (h16 k2 (by simp)) (h16 k3 (by simp))
    simp only [Nat.zero_shiftLeft, Nat.zero_or] at e
    simp only [List.enum, List.enumFrom, List.foldl, Nat.zero_or]
    rw [show (16 - 4 * 0 : ℕ) = 16 from rfl, show (16 - 4 * 1 : ℕ) = 12 from rfl]
    try rw [show (16 - 4 * 2 : ℕ) = 8 from rfl]
    try rw [show (16 - 4 * 3 : ℕ) = 4 from rfl]
    try rw [show (16 - 4 * 4 : ℕ) = 0 from rfl, Nat.shiftLeft_zero]
    simp [pack6, e, List.getD_cons_zero, List.getD_cons_succ]
  | [k0, k1, k2, k3, k4], _ =>
    have e := pack_cat5 0 k0 k1 k2 k3 k4 (h16 k0 (by simp)) (h16 k1 (by simp))
      (h16 k2 (by simp)) (h16 k3 (by simp)) (h16 k4 (by simp))
    simp only [Nat.zero_shiftLeft, Nat.zero_or] at e
    simp only [List.enum, List.enumFrom, List.foldl, Nat.zero_or]
    rw [show (16 - 4 * 0 : ℕ) = 16 from rfl, show (16 - 4 * 1 : ℕ) = 12 from rfl]
    try rw [show (16 - 4 * 2 : ℕ) = 8 from rfl]
    try rw [show (16 - 4 * 3 : ℕ) = 4 from rfl]
    try rw [show (16 - 4 * 4 : ℕ) = 0 from rfl, Nat.shiftLeft_zero]
    simp [pack6, e, List.getD_cons_zero, List.getD_cons_succ]

theorem straightHighOf_lt {l : List ℕ} {i : ℕ} (h : straightHighOf l = some i) :
    i < 13 := by
  unfold straightHighOf at h
  dsimp only [] at h
  split at h
  · rename_i j hj
    have := (mem_straightWindows (List.mem_of_find?_eq_some hj)).2
    cases h
    omega
  · split at h
    · cases h
      omega
    · cases h

theorem inBounds_mk {c a b d e f : ℕ} (hc : c ≤ 8) (h1 : a < 16) (h2 : b < 16)
    (h3 : d < 16) (h4 : e < 16) (h5 : f < 16) : inBounds ⟨c, a, b, d, e, f⟩ :=
  ⟨hc, h1, h2, h3, h4, h5⟩

theorem specRank_inBounds (cards : List ℕ) : inBounds (specRank cards) := by
  have hfilter : ∀ (p : ℕ → Bool), ∀ x ∈ descRanks.filter p, x < 13 :=
    fun p x hx => filter_descRanks_lt hx
  have htake : ∀ (p : ℕ → Bool) (k : ℕ), ∀ x ∈ (descRanks.filter p).take k, x < 13 :=
    fun p k x hx => filter_take_lt hx
  unfold specRank
  dsimp only []
  split
  · rename_i fs heq
    split
    · rename_i i hi
      exact inBounds_mk (by omega) (by have := straightHighOf_lt hi; omega)
        (by omega) (by omega) (by omega) (by omega)
    · rename_i hnone
      have hb := sorted_flushRanks_lt cards fs
      exact inBounds_mk (by omega) (getD_lt_16 hb 0) (getD_lt_16 hb 1)
        (getD_lt_16 hb 2) (getD_lt_16 hb 3) (getD_lt_16 hb 4)
  · rename_i heq
    split
    · rename_i i hi
      exact inBounds_mk (by omega) (by have := straightHighOf_lt hi; omega)
        (by omega) (by omega) (by omega) (by omega)
    · rename_i hnone
      split
      · rename_i hq
        exact inBounds_mk (by omega) (headD_lt_16 (hfilter _))
          (find?_getD_lt_16 descRanks_lt _) (by omega) (by omega) (by omega)
      · split
        · rename_i hfh
          refine inBounds_mk (by omega) (headD_lt_16 (hfilter _)) ?_
            (by omega) (by omega) (by omega)
          have h1 : (descRanks.filter
              (fun r => (cards.map (fun c => c % 13)).count r == 3)).getD 1 0 < 16 :=
            getD_lt_16 (hfilter _) 1
          have h2 : (descRanks.filter
              (fun r => (cards.map (fun c => c % 13)).count r == 2)).headD 0 < 16 :=
            headD_lt_16 (hfilter _)
          exact Nat.max_lt.mpr ⟨h1, h2⟩
        · split
          · rename_i htr
            exact inBounds_mk (by omega) (headD_lt_16 (hfilter _))
              (getD_lt_16 (htake _ _) 0) (getD_lt_16 (htake _ _) 1)
              (by omega) (by omega)
          · split
            · rename_i hp2
              exact inBounds_mk (by omega) (headD_lt_16 (hfilter _))
                (getD_lt_16 (hfilter _) 1) (find?_getD_lt_16 descRanks_lt _)
                (by omega) (by omega)
            · split
              · rename_i hp1
                exact inBounds_mk (by omega) (headD_lt_16 (hfilter _))
                  (getD_lt_16 (htake _ _) 0) (getD_lt_16 (htake _ _) 1)
                  (getD_lt_16 (htake _ _) 2) (by omega)
              · exact inBounds_mk (by omega) (getD_lt_16 (htake _ _) 0)
                  (getD_lt_16 (htake _ _) 1) (getD_lt_16 (htake _ _) 2)
                  (getD_lt_16 (htake _ _) 3) (getD_lt_16 (htake _ _) 4)

theorem pack6_mk2 (c t1 : ℕ) : pack6 ⟨c, t1, 0, 0, 0, 0⟩ = c * 2 ^ 20 + t1 * 2 ^ 16 := by
  unfold pack6
  ring

theorem pack6_mk3 (c t1 t2 : ℕ) :
    pack6 ⟨c, t1, t2, 0, 0, 0⟩ = c * 2 ^ 20 + t1 * 2 ^ 16 + t2 * 2 ^ 12 := by
  unfold pack6
  ring

theorem pack6_mk4 (c t1 t2 t3 : ℕ) :
    pack6 ⟨c, t1, t2, t3, 0, 0⟩
      = c * 2 ^ 20 + t1 * 2 ^ 16 + t2 * 2 ^ 12 + t3 * 2 ^ 8 := by
  unfold pack6
  ring

theorem pack6_mk5 (c t1 t2 t3 t4 : ℕ) :
    pack6 ⟨c, t1, t2, t3, t4, 0⟩
      = c * 2 ^ 20 + t1 * 2 ^ 16 + t2 * 2 ^ 12 + t3 * 2 ^ 8 + t4 * 2 ^ 4 := by
  unfold pack6
  ring

/-- The central refinement: on any 7-card input the packed integer the
source's `evaluate_hand` computes is exactly the packing of the spec-side
field vector `specRank`. -/
theorem evaluateHand_eq_pack (cards : List ℕ) (h7 : cards.length = 7)
    (h52 : ∀ c ∈ cards, c < 52) :
    evaluateHand cards = pack6 (specRank cards) := by
  have hsuitlen : (cards.map (fun c => c / 13)).length ≤ 9 := by simp [h7]
  have hsuitmem : ∀ s ∈ cards.map (fun c => c / 13), s < 4 := by
    intro s hs
    obtain ⟨c, hc, rfl⟩ := List.mem_map.mp hs
    have := h52 c hc
    omega
  have hrc : rankCountsLoop (cards.map (fun c => c % 13)) (fun _ => 0)
      = fun r => (cards.map (fun c => c % 13)).count r := by
    funext r
    rw [rankCountsLoop_eq]
    simp
  have hfilter : ∀ (p : ℕ → Bool), ∀ x ∈ descRanks.filter p, x < 13 :=
    fun p x hx => filter_descRanks_lt hx
  have htake : ∀ (p : ℕ → Bool) (k : ℕ), ∀ x ∈ (descRanks.filter p).take k, x < 13 :=
    fun p k x hx => filter_take_lt hx
  unfold evaluateHand specRank
  dsimp only []
  rw [flushSuitLoop_eq_find _ hsuitlen hsuitmem]
  simp only [zip_filter_map_eq]
  unfold straightHighOf
  simp only [hrc]
  split
  · rename_i fs heq
    have hfrb := sorted_flushRanks_lt cards fs
    split
    · rename_i i hi
      have hib := (mem_straightWindows (List.mem_of_find?_eq_some hi)).2
      rw [pack_cat1 8 i (by omega), pack6_mk2]
    · rename_i hnone
      split
      · rw [pack_cat1 8 3 (by omega), pack6_mk2]
      · exact range5_fold_pack _ hfrb
  · rename_i heq
    split
    · rename_i i hi
      have hib := (mem_straightWindows (List.mem_of_find?_eq_some hi)).2
      rw [pack_cat1 4 i (by omega), pack6_mk2]
    · rename_i hnone
      split
      · rw [pack_cat1 4 3 (by omega), pack6_mk2]
      · split
        · rename_i hq
          rw [pack_cat2 7 _ _ (headD_lt_16 (hfilter _))
            (find?_getD_lt_16 descRanks_lt _), pack6_mk3]
        · split
          · rename_i hfh
            set T := descRanks.filter (fun r =>
              (cards.map (fun c => c % 13)).count r == 3) with hT
            set Pp := descRanks.filter (fun r =>
              (cards.map (fun c => c % 13)).count r == 2) with hPp
            have hbT : ∀ x ∈ T, x < 13 := by rw [hT]; exact hfilter _
            have hbP : ∀ x ∈ Pp, x < 13 := by rw [hPp]; exact hfilter _
            have hmax : (if Pp ≠ [] ∧ 2 ≤ T.length ∧ T.getD 1 0 < Pp.headD 0
                then Pp.headD 0
                else if 2 ≤ T.length then T.getD 1 0
                else if Pp ≠ [] then Pp.headD 0 else 0)
                = max (T.getD 1 0) (Pp.headD 0) := by
              have hP0 : Pp = [] → Pp.headD 0 = 0 := by
                intro h
                rw [h]
                rfl
              have hT0 : ¬ 2 ≤ T.length → T.getD 1 0 = 0 := fun h =>
                List.getD_eq_default _ _ (by omega)
              split_ifs with h1 h2 h3
              · omega
              · rcases Classical.em (Pp = []) with hpe | hpe
                · have := hP0 hpe
                  omega
                · push_neg at h1
                  have := h1 hpe h2
                  omega
              · have := hT0 h2
                omega
              · rcases hfh with ⟨htne, hd⟩
                rcases hd with hd | hd
                · exact absurd hd h2
                · exact absurd hd h3
            rw [hmax, pack_cat2 6 _ _ (headD_lt_16 hbT)
              (Nat.max_lt.mpr ⟨getD_lt_16 hbT 1, headD_lt_16 hbP⟩), pack6_mk3]
          · split
            · rename_i htr
              rw [pack_cat3 3 _ _ _ (headD_lt_16 (hfilter _))
                (getD_lt_16 (htake _ _) 0) (getD_lt_16 (htake _ _) 1), pack6_mk4]
            · split
              · rename_i hp2
                rw [pack_cat3 2 _ _ _ (headD_lt_16 (hfilter _))
                  (getD_lt_16 (hfilter _) 1) (find?_getD_lt_16 descRanks_lt _),
                  pack6_mk4]
              · split
                · rename_i hp1
                  rw [pack_cat4 1 _ _ _ _ (headD_lt_16 (hfilter _))
                    (getD_lt_16 (htake _ _) 0) (getD_lt_16 (htake _ _) 1)
                    (getD_lt_16 (htake _ _) 2), pack6_mk5]
                · exact enum_fold_pack _ (List.length_take_le _ _) (htake _ _)

theorem specRank_perm {A B : List ℕ} (h : A.Perm B) : specRank A = specRank B := by
  have hsuit : ∀ su : ℕ, (B.map (fun c => c / 13)).count su
      = (A.map (fun c => c / 13)).count su :=
    fun su => ((h.map _).count_eq su).symm
  have hrank : ∀ r : ℕ, (B.map (fun c => c % 13)).count r
      = (A.map (fun c => c % 13)).count r :=
    fun r => ((h.map _).count_eq r).symm
  have hfr : ∀ fs : ℕ, List.insertionSort (fun a b => a ≥ b)
        ((B.filter (fun c => c / 13 == fs)).map (fun c => c % 13))
      = List.insertionSort (fun a b => a ≥ b)
        ((A.filter (fun c => c / 13 == fs)).map (fun c => c % 13)) := by
    intro fs
    haveI hanti : IsAntisymm ℕ (fun a b : ℕ => a ≥ b) :=
      ⟨fun a b h1 h2 => le_antisymm h2 h1⟩
    exact @List.eq_of_perm_of_sorted ℕ (fun a b => a ≥ b) hanti _ _
      ((List.perm_insertionSort _ _).trans
        ((((h.filter _).map _).symm).trans (List.perm_insertionSort _ _).symm))
      (List.sorted_insertionSort _ _) (List.sorted_insertionSort _ _)
  have hmask : rankMask (B.map (fun c => c % 13))
      = rankMask (A.map (fun c => c % 13)) := by
    unfold rankMask
    haveI : RightCommutative (fun (m r : ℕ) => m ||| (1 <<< r)) := ⟨fun m a b => by
      show (m ||| (1 <<< a)) ||| (1 <<< b) = (m ||| (1 <<< b)) ||| (1 <<< a)
      rw [Nat.lor_assoc, Nat.lor_assoc, Nat.lor_comm (1 <<< a) (1 <<< b)]⟩
    exact ((h.map _).foldl_eq 0).symm
  unfold specRank straightHighOf
  simp only [hsuit, hrank, hfr, hmask]

/-- C10: the evaluator's score is a function of the set of cards only:
any permutation of a 7-card hand evaluates to the same score. -/
theorem evaluateHand_perm_invariant :
    ∀ A B : List ℕ, A.length = 7 → A.Nodup → (∀ c ∈ A, c < 52) →
      A.Perm B → evaluateHand A = evaluateHand B := by
  intro A B h7 _ h52 hp
  rw [evaluateHand_eq_pack A h7 h52,
    evaluateHand_eq_pack B (hp.length_eq ▸ h7) (fun c hc => h52 c (hp.symm.subset hc)),
    specRank_perm hp]

/-- C10 witness: a royal-flush hand and a concrete permutation of it. -/
theorem evaluateHand_perm_invariant_witness :
    evaluateHand handA = evaluateHand [26, 27, 12, 11, 10, 9, 8] :=
  evaluateHand_perm_invariant handA [26, 27, 12, 11, 10, 9, 8]
    (by decide) (by decide) (by decide) (by decide)

/-- C1: scores compare exactly as the spec-side standard ranking compares
(lexicographically on category then tiebreaks, kickers included), and the
three concrete hands of the spec score categories 8, 7, 6 with strictly
decreasing scores (category shift 20). -/
theorem hand_score_total_ordering :
    (∀ A B : List ℕ, A.length = 7 → A.Nodup → (∀ c ∈ A, c < 52) →
      B.length = 7 → B.Nodup → (∀ c ∈ B, c < 52) →
      ((evaluateHand B < evaluateHand A ↔ rankGt (specRank A) (specRank B)) ∧
       (evaluateHand A = evaluateHand B ↔ specRank A = specRank B))) ∧
    evaluateHand handA >>> 20 = 8 ∧ evaluateHand handB >>> 20 = 7 ∧
    evaluateHand handC >>> 20 = 6 ∧
    evaluateHand handB < evaluateHand handA ∧
    evaluateHand handC < evaluateHand handB := by
  refine ⟨?_, by decide, by decide, by decide, by decide, by decide⟩
  intro A B hA7 _ hA52 hB7 _ hB52
  rw [evaluateHand_eq_pack A hA7 hA52, evaluateHand_eq_pack B hB7 hB52]
  exact ⟨pack6_lt_iff _ _ (specRank_inBounds A) (specRank_inBounds B),
    pack6_eq_iff _ _ (specRank_inBounds A) (specRank_inBounds B)⟩

/-- C1 witness: the ordering equivalence instantiated at the spec's royal
flush and quad-aces hands. -/
theorem hand_score_total_ordering_witness :
    (evaluateHand handB < evaluateHand handA ↔
      rankGt (specRank handA) (specRank handB)) ∧
    (evaluateHand handA = evaluateHand handB ↔ specRank handA = specRank handB) :=
  hand_score_total_ordering.1 handA handB (by decide) (by decide) (by decide)
    (by decide) (by decide) (by decide)

/-- C9 counterexample: a malformed input — 7 cards containing a duplicated
ace — on which `evaluate_hand` does not raise: it silently returns a score
(and ranks the duplicated ace as a pair). -/
theorem evaluator_contract_counterexample :
    dupAce7.length = 7 ∧ ¬ dupAce7.Nodup ∧
    (evaluateHandChecked dupAce7).isSome = true ∧
    evaluateHandChecked dupAce7 = some ((1 <<< 20) ||| (12 <<< 16) |||
      (11 <<< 12) ||| (10 <<< 8) ||| (5 <<< 4)) := by
  decide

/-- C9 amended: `evaluate_hand` performs no input validation.  A 7-card
list with a duplicated card returns a normal (misranked) score computed
from the duplicated multiplicities — here a pair of aces — exactly as the
total function computes; only some wrong-count inputs raise incidentally
(e.g. a 3-card input hits an `IndexError` in the trips branch). -/
theorem evaluator_no_contract_check :
    evaluateHandChecked dupAce7 = some (evaluateHand dupAce7) ∧
    evaluateHand dupAce7 >>> 20 = 1 ∧
    evaluateHandChecked shortHand = none := by
  decide

/-! ### Bitmask-membership bridges (for the wheel/straight hypotheses) -/

theorem testBit_foldl_lor (l : List ℕ) : ∀ (acc j : ℕ),
    (l.foldl (fun m r => m ||| (1 <<< r)) acc).testBit j
      = (acc.testBit j || decide (j ∈ l)) := by
  induction l with
  | nil => intro acc j; simp
  | cons a t ih =>
    intro acc j
    show (t.foldl _ (acc ||| (1 <<< a))).testBit j = _
    rw [ih, Nat.testBit_lor]
    have h1 : (1 : ℕ) <<< a = 2 ^ a := by rw [Nat.shiftLeft_eq, one_mul]
    by_cases hja : j = a
    · subst hja
      simp [h1, Nat.testBit_two_pow_self]
    · have hne : a ≠ j := fun h => hja h.symm
      simp [h1, Nat.testBit_two_pow_of_ne hne, hja]

theorem testBit_rankMask_iff (l : List ℕ) (j : ℕ) :
    (rankMask l).testBit j = true ↔ j ∈ l := by
  unfold rankMask
  rw [testBit_foldl_lor]
  simp

theorem land_absorb_iff (a b : ℕ) :
    a &&& b = b ↔ ∀ j, b.testBit j = true → a.testBit j = true := by
  constructor
  · intro h j hbj
    have h2 := congrArg (fun x => x.testBit j) h
    simp only [Nat.testBit_land] at h2
    rw [hbj] at h2
    simpa using h2
  · intro h
    apply Nat.eq_of_testBit_eq
    intro j
    rw [Nat.testBit_land]
    cases hbj : b.testBit j
    · simp
    · simp [h j hbj]

theorem sMask_mem_iff (i j : ℕ) :
    (sMask i).testBit j = true ↔ ∃ k, k < 5 ∧ i - k = j := by
  have he : sMask i = rankMask ((List.range 5).map (fun k => i - k)) := by
    unfold sMask rankMask
    rw [List.foldl_map]
  rw [he, testBit_rankMask_iff]
  simp only [List.mem_map, List.mem_range]

theorem window_subset_iff (l : List ℕ) (i : ℕ) :
    (rankMask l &&& sMask i = sMask i) ↔ ∀ k, k < 5 → (i - k) ∈ l := by
  rw [land_absorb_iff]
  constructor
  · intro h k hk
    exact (testBit_rankMask_iff l _).mp
      (h _ ((sMask_mem_iff i (i - k)).mpr ⟨k, hk, rfl⟩))
  · intro h j hj
    obtain ⟨k, hk, rfl⟩ := (sMask_mem_iff i j).mp hj
    exact (testBit_rankMask_iff l _).mpr (h k hk)

theorem wheel_subset_iff (l : List ℕ) :
    (rankMask l &&& wheelMask = wheelMask)
      ↔ (12 ∈ l ∧ 0 ∈ l ∧ 1 ∈ l ∧ 2 ∈ l ∧ 3 ∈ l) := by
  have hw : wheelMask = rankMask [12, 0, 1, 2, 3] := by decide
  rw [hw, land_absorb_iff]
  constructor
  · intro h
    refine ⟨?_, ?_, ?_, ?_, ?_⟩ <;>
      exact (testBit_rankMask_iff l _).mp
        (h _ ((testBit_rankMask_iff [12, 0, 1, 2, 3] _).mpr (by decide)))
  · rintro ⟨h12, h0, h1, h2, h3⟩ j hj
    have hm := (testBit_rankMask_iff [12, 0, 1, 2, 3] j).mp hj
    simp only [List.mem_cons, List.not_mem_nil, or_false] at hm
    rcases hm with rfl | rfl | rfl | rfl | rfl
    · exact (testBit_rankMask_iff l _).mpr h12
    · exact (testBit_rankMask_iff l _).mpr h0
    · exact (testBit_rankMask_iff l _).mpr h1
    · exact (testBit_rankMask_iff l _).mpr h2
    · exact (testBit_rankMask_iff l _).mpr h3

/-! ### Wheel-handling branch determinations -/

theorem specRank_wheel (A : List ℕ)
    (hnf : ∀ su, su < 4 → (A.map (fun c => c / 13)).count su < 5)
    (hw : 12 ∈ A.map (fun c => c % 13) ∧ 0 ∈ A.map (fun c => c % 13) ∧
      1 ∈ A.map (fun c => c % 13) ∧ 2 ∈ A.map (fun c => c % 13) ∧
      3 ∈ A.map (fun c => c % 13))
    (hns : ∀ i, i < 13 → 4 ≤ i → ∃ k, k < 5 ∧ (i - k) ∉ A.map (fun c => c % 13)) :
    specRank A = ⟨4, 3, 0, 0, 0, 0⟩ := by
  have h1 : (List.range 4).find?
      (fun su => decide (5 ≤ (A.map (fun c => c / 13)).count su)) = none :=
    List.find?_eq_none.mpr (fun su hsu => by
      simp only [List.mem_range] at hsu
      have := hnf su hsu
      simp
      omega)
  have h2 : straightWindows.find? (fun i =>
      ((rankMask (A.map (fun c => c % 13))) &&& sMask i) == sMask i) = none :=
    List.find?_eq_none.mpr (fun i hi => by
      have hm := mem_straightWindows hi
      obtain ⟨k, hk, hnk⟩ := hns i hm.2 hm.1
      simp only [beq_iff_eq]
      exact fun hc => hnk ((window_subset_iff _ _).mp hc k hk))
  have h3 : (rankMask (A.map (fun c => c % 13))) &&& wheelMask = wheelMask :=
    (wheel_subset_iff _).mpr ⟨hw.1, hw.2.1, hw.2.2.1, hw.2.2.2.1, hw.2.2.2.2⟩
  simp only [specRank, straightHighOf, h1, h2, h3, if_true]

theorem specRank_straight6 (B : List ℕ)
    (hnf : ∀ su, su < 4 → (B.map (fun c => c / 13)).count su < 5)
    (hst : ∀ k, k < 5 → (4 - k) ∈ B.map (fun c => c % 13))
    (hns : ∀ i, i < 13 → 5 ≤ i → ∃ k, k < 5 ∧ (i - k) ∉ B.map (fun c => c % 13)) :
    specRank B = ⟨4, 4, 0, 0, 0, 0⟩ := by
  have h1 : (List.range 4).find?
      (fun su => decide (5 ≤ (B.map (fun c => c / 13)).count su)) = none :=
    List.find?_eq_none.mpr (fun su hsu => by
      simp only [List.mem_range] at hsu
      have := hnf su hsu
      simp
      omega)
  have h2 : straightWindows.find? (fun i =>
      ((rankMask (B.map (fun c => c % 13))) &&& sMask i) == sMask i) = some 4 := by
    apply find?_unique
    · simp only [beq_iff_eq]
      exact (window_subset_iff _ 4).mpr hst
    · decide
    · intro t ht hpt
      have hm := mem_straightWindows ht
      by_contra hne
      have h5 : 5 ≤ t := by omega
      obtain ⟨k, hk, hnk⟩ := hns t hm.2 h5
      simp only [beq_iff_eq] at hpt
      exact hnk ((window_subset_iff _ _).mp (by simpa using hpt) k hk)
  simp only [specRank, straightHighOf, h1, h2]

theorem specRank_wheelSF (D : List ℕ) (s : ℕ) (h7 : D.length = 7) (hs4 : s < 4)
    (hcount : 5 ≤ (D.map (fun c => c / 13)).count s)
    (hw : 12 ∈ flushCards D s ∧ 0 ∈ flushCards D s ∧ 1 ∈ flushCards D s ∧
      2 ∈ flushCards D s ∧ 3 ∈ flushCards D s)
    (hns : ∀ i, i < 13 → 4 ≤ i → ∃ k, k < 5 ∧ (i - k) ∉ flushCards D s) :
    specRank D = ⟨8, 3, 0, 0, 0, 0⟩ := by
  have h1 : (List.range 4).find?
      (fun su => decide (5 ≤ (D.map (fun c => c / 13)).count su)) = some s := by
    apply find?_unique
    · exact decide_eq_true hcount
    · simp
      omega
    · intro t _ hpt
      by_contra hne
      have hpt2 : 5 ≤ (D.map (fun c => c / 13)).count t := by simpa using hpt
      have hpair := count_pair_le_length
        (l := D.map (fun c => c / 13)) (s := s) (t := t) (fun h => hne h.symm)
      have hlen : (D.map (fun c => c / 13)).length = 7 := by simp [h7]
      omega
  have hperm := List.perm_insertionSort (fun a b => a ≥ b) (flushCards D s)
  have hmem : ∀ x : ℕ, x ∈ List.insertionSort (fun a b => a ≥ b) (flushCards D s)
      ↔ x ∈ flushCards D s := fun x => hperm.mem_iff
  have h2 : straightWindows.find? (fun i =>
      ((rankMask (List.insertionSort (fun a b => a ≥ b) (flushCards D s)))
        &&& sMask i) == sMask i) = none :=
    List.find?_eq_none.mpr (fun i hi => by
      have hm := mem_straightWindows hi
      obtain ⟨k, hk, hnk⟩ := hns i hm.2 hm.1
      simp only [beq_iff_eq]
      exact fun hc => hnk ((hmem _).mp ((window_subset_iff _ _).mp hc k hk)))
  have h3 : (rankMask (List.insertionSort (fun a b => a ≥ b) (flushCards D s)))
      &&& wheelMask = wheelMask :=
    (wheel_subset_iff _).mpr ⟨(hmem _).mpr hw.1, (hmem _).mpr hw.2.1,
      (hmem _).mpr hw.2.2.1, (hmem _).mpr hw.2.2.2.1, (hmem _).mpr hw.2.2.2.2⟩
  simp only [specRank, straightHighOf, flushCards] at *
  simp only [h1, h2, h3, if_true]

theorem pack6_lt_cat_succ (h : HandRank) (hb : inBounds h) :
    pack6 h < (h.cat + 1) * 2 ^ 20 := by
  obtain ⟨c, t1, t2, t3, t4, t5⟩ := h
  obtain ⟨hc, h1, h2, h3, h4, h5⟩ := hb
  simp only [pack6] at *
  norm_num at *
  omega

/-- C6 counterexample: the claim also asserts the wheel scores strictly
above ANY non-straight, non-flush hand — but a full house (here aces full
of kings, `handC`) is non-straight and non-flush and outscores the wheel. -/
theorem wheel_handling_counterexample :
    (∀ su, su < 4 → (wheelHand.map (fun c => c / 13)).count su < 5) ∧
    12 ∈ wheelHand.map (fun c => c % 13) ∧ 0 ∈ wheelHand.map (fun c => c % 13) ∧
    1 ∈ wheelHand.map (fun c => c % 13) ∧ 2 ∈ wheelHand.map (fun c => c % 13) ∧
    3 ∈ wheelHand.map (fun c => c % 13) ∧
    (∀ i, i < 13 → 4 ≤ i →
      ∃ k, k < 5 ∧ (i - k) ∉ wheelHand.map (fun c => c % 13)) ∧
    (∀ su, su < 4 → (handC.map (fun c => c / 13)).count su < 5) ∧
    (∀ i, i < 13 → 4 ≤ i →
      ∃ k, k < 5 ∧ (i - k) ∉ handC.map (fun c => c % 13)) ∧
    ¬ (12 ∈ handC.map (fun c => c % 13) ∧ 0 ∈ handC.map (fun c => c % 13) ∧
      1 ∈ handC.map (fun c => c % 13) ∧ 2 ∈ handC.map (fun c => c % 13) ∧
      3 ∈ handC.map (fun c => c % 13)) ∧
    evaluateHand wheelHand < evaluateHand handC := by
  decide

/-- C6 amended: a 7-card hand containing A,2,3,4,5 with no flush and no
higher straight scores category 4 with tiebreak "Five"; that score is
strictly below any 6-high straight, and strictly above any non-straight,
non-flush hand whose category is at most Trips (quads and full houses
beat straights and are excluded); a wheel straight flush scores category 8
as 5-high, never ace-high. -/
theorem wheel_handling_amended :
    ∀ (A B C D : List ℕ) (s : ℕ),
      A.length = 7 → (∀ c ∈ A, c < 52) →
      (∀ su, su < 4 → (A.map (fun c => c / 13)).count su < 5) →
      (12 ∈ A.map (fun c => c % 13) ∧ 0 ∈ A.map (fun c => c % 13) ∧
        1 ∈ A.map (fun c => c % 13) ∧ 2 ∈ A.map (fun c => c % 13) ∧
        3 ∈ A.map (fun c => c % 13)) →
      (∀ i, i < 13 → 4 ≤ i → ∃ k, k < 5 ∧ (i - k) ∉ A.map (fun c => c % 13)) →
      B.length = 7 → (∀ c ∈ B, c < 52) →
      (∀ su, su < 4 → (B.map (fun c => c / 13)).count su < 5) →
      (∀ k, k < 5 → (4 - k) ∈ B.map (fun c => c % 13)) →
      (∀ i, i < 13 → 5 ≤ i → ∃ k, k < 5 ∧ (i - k) ∉ B.map (fun c => c % 13)) →
      C.length = 7 → (∀ c ∈ C, c < 52) → (specRank C).cat ≤ 3 →
      D.length = 7 → (∀ c ∈ D, c < 52) → s < 4 →
      5 ≤ (D.map (fun c => c / 13)).count s →
      (12 ∈ flushCards D s ∧ 0 ∈ flushCards D s ∧ 1 ∈ flushCards D s ∧
        2 ∈ flushCards D s ∧ 3 ∈ flushCards D s) →
      (∀ i, i < 13 → 4 ≤ i → ∃ k, k < 5 ∧ (i - k) ∉ flushCards D s) →
      evaluateHand A = 4 * 2 ^ 20 + 3 * 2 ^ 16 ∧
      evaluateHand A < evaluateHand B ∧
      evaluateHand C < evaluateHand A ∧
      evaluateHand D = 8 * 2 ^ 20 + 3 * 2 ^ 16 := by
  intro A B C D s hA7 hA52 hAnf hAw hAns hB7 hB52 hBnf hBst hBns
    hC7 hC52 hCcat hD7 hD52 hs4 hDc hDw hDns
  have eA : evaluateHand A = pack6 ⟨4, 3, 0, 0, 0, 0⟩ := by
    rw [evaluateHand_eq_pack A hA7 hA52, specRank_wheel A hAnf hAw hAns]
  have eB : evaluateHand B = pack6 ⟨4, 4, 0, 0, 0, 0⟩ := by
    rw [evaluateHand_eq_pack B hB7 hB52, specRank_straight6 B hBnf hBst hBns]
  have eD : evaluateHand D = pack6 ⟨8, 3, 0, 0, 0, 0⟩ := by
    rw [evaluateHand_eq_pack D hD7 hD52, specRank_wheelSF D s hD7 hs4 hDc hDw hDns]
  have eC : evaluateHand C = pack6 (specRank C) := evaluateHand_eq_pack C hC7 hC52
  refine ⟨?_, ?_, ?_, ?_⟩
  · rw [eA, pack6_mk2]
  · rw [eA, eB, pack6_mk2, pack6_mk2]
    norm_num
  · rw [eC, eA, pack6_mk2]
    have hbC := specRank_inBounds C
    have hlt := pack6_lt_cat_succ _ hbC
    have e1 : (2 : ℕ) ^ 16 = 65536 := by norm_num
    have e2 : (2 : ℕ) ^ 20 = 1048576 := by norm_num
    omega
  · rw [eD, pack6_mk2]

/-- C6 witness: the amended statement at concrete hands — an unsuited
wheel, a 6-high straight, a pair hand, and a spade wheel straight flush. -/
theorem wheel_handling_amended_witness :
    evaluateHand wheelHand = 4 * 2 ^ 20 + 3 * 2 ^ 16 ∧
    evaluateHand wheelHand < evaluateHand sixHighHand ∧
    evaluateHand pairHand < evaluateHand wheelHand ∧
    evaluateHand wheelSFHand = 8 * 2 ^ 20 + 3 * 2 ^ 16 :=
  wheel_handling_amended wheelHand sixHighHand pairHand wheelSFHand 0
    (by decide) (by decide) (by decide) (by decide) (by decide)
    (by decide) (by decide) (by decide) (by decide) (by decide)
    (by decide) (by decide) (by decide) (by decide) (by decide)
    (by decide) (by decide) (by decide) (by decide)

/-! ### Chip conservation in the betting engine -/

theorem fin2_ne_sub (p : Fin 2) : 1 - p ≠ p := by
  rcases fin2_cases p with rfl | rfl <;> decide

theorem fin2_sub_ne (p : Fin 2) : p ≠ 1 - p := by
  rcases fin2_cases p with rfl | rfl <;> decide

theorem update_sum2 (f : Fin 2 → ℚ) (p : Fin 2) (v : ℚ) :
    Function.update f p v 0 + Function.update f p v 1 = f 0 + f 1 - f p + v := by
  rcases fin2_cases p with rfl | rfl
  · rw [Function.update_same, Function.update_noteq (by decide : (1 : Fin 2) ≠ 0)]
    ring
  · rw [Function.update_noteq (by decide : (0 : Fin 2) ≠ 1), Function.update_same]
    ring

theorem foldApply_props (s : FastState) :
    (foldApply s).stacks' 0 + (foldApply s).stacks' 1
        = s.stacks' 0 + s.stacks' 1 + s.pot ∧
    (foldApply s).hand_complete = true := by
  unfold foldApply
  refine ⟨?_, rfl⟩
  rw [update_sum2]
  ring

theorem callApply_props (s : FastState) :
    (callApply s).stacks' 0 + (callApply s).stacks' 1 + (callApply s).pot
        = s.stacks' 0 + s.stacks' 1 + s.pot ∧
    (callApply s).hand_complete = s.hand_complete := by
  unfold callApply
  dsimp only []
  split
  · exact ⟨rfl, rfl⟩
  · split
    · dsimp only []
      constructor
      · rw [update_sum2, update_sum2]
        rw [Function.update_noteq (fin2_sub_ne s.active_player)]
        ring
      · rfl
    · dsimp only []
      constructor
      · rw [update_sum2]
        ring
      · rfl

theorem raiseApply_props (s : FastState) :
    (raiseApply s).1.stacks' 0 + (raiseApply s).1.stacks' 1 + (raiseApply s).1.pot
        = s.stacks' 0 + s.stacks' 1 + s.pot ∧
    (raiseApply s).1.hand_complete = s.hand_complete := by
  unfold raiseApply
  dsimp only []
  split <;> split <;>
    [skip; skip; skip; skip] <;>
    first
    | (refine ⟨?_, rfl⟩
       rw [update_sum2, update_sum2,
         Function.update_noteq (fin2_sub_ne s.active_player)]
       ring)
    | (refine ⟨?_, rfl⟩
       rw [update_sum2]
       ring)

theorem showdown_props (s : FastState) :
    (showdown s).stacks' 0 + (showdown s).stacks' 1
        = s.stacks' 0 + s.stacks' 1 + s.pot ∧
    (showdown s).hand_complete = true := by
  unfold showdown
  dsimp only []
  split
  · refine ⟨?_, rfl⟩
    rw [update_sum2]
    ring
  · split
    · refine ⟨?_, rfl⟩
      rw [update_sum2]
      ring
    · refine ⟨?_, rfl⟩
      dsimp only []
      ring

theorem advanceStreet_props (s : FastState) (deck : List ℕ) (idx : ℕ) (btn : Fin 2) :
    (advanceStreet s deck idx btn).1.stacks' 0 + (advanceStreet s deck idx btn).1.stacks' 1
        + (advanceStreet s deck idx btn).1.pot
      = s.stacks' 0 + s.stacks' 1 + s.pot ∧
    (advanceStreet s deck idx btn).1.hand_complete = s.hand_complete := by
  unfold advanceStreet
  dsimp only []
  split
  · exact ⟨rfl, rfl⟩
  · split
    · exact ⟨rfl, rfl⟩
    · split
      · exact ⟨rfl, rfl⟩
      · exact ⟨rfl, rfl⟩

theorem runStreet_total (R : RandFuns) (P : Fin 2 → StratOracle)
    (burn : Fin 2 → BurnState) (btn : Fin 2) :
    ∀ (fuel : ℕ) (s : FastState) (rng : RngState) (qc : ℕ) (fa : Bool)
      (out : FastState × RngState × ℕ),
      runStreet R P burn btn fuel s rng qc fa = some out →
      s.hand_complete = false →
      (out.1.hand_complete = true →
        out.1.stacks' 0 + out.1.stacks' 1 = s.stacks' 0 + s.stacks' 1 + s.pot) ∧
      (out.1.hand_complete = false →
        out.1.stacks' 0 + out.1.stacks' 1 + out.1.pot
          = s.stacks' 0 + s.stacks' 1 + s.pot) := by
  intro fuel
  induction fuel with
  | zero =>
    intro s rng qc fa out h
    simp [runStreet] at h
  | succ n ih =>
    intro s rng qc fa out h hsc
    simp only [runStreet] at h
    split at h
    · cases h
      constructor
      · intro hc
        rw [hsc] at hc
        simp at hc
      · intro _
        ring
    · split at h
      · cases h
        obtain ⟨hsum, hcomp⟩ := foldApply_props s
        constructor
        · intro _
          exact hsum
        · intro hc
          dsimp only [] at hc
          rw [hcomp] at hc
          simp at hc
      · obtain ⟨hsum, hcomp⟩ := callApply_props s
        split at h
        · cases h
          constructor
          · intro hc
            dsimp only [] at hc
            rw [hcomp, hsc] at hc
            simp at hc
          · intro _
            dsimp only []
            exact hsum
        · have hs1c : ({ callApply s with
              active_player := 1 - s.active_player } : FastState).hand_complete
              = false := by
            dsimp only []
            rw [hcomp]
            exact hsc
          have hrec := ih _ _ _ _ _ h hs1c
          constructor
          · intro hc
            have hh := hrec.1 hc
            dsimp only [] at hh
            rw [hsum] at hh
            exact hh
          · intro hc
            have hh := hrec.2 hc
            dsimp only [] at hh
            rw [hsum] at hh
            exact hh
      · obtain ⟨hsum, hcomp⟩ := raiseApply_props s
        split at h
        · cases h
          constructor
          · intro hc
            dsimp only [] at hc
            rw [hcomp, hsc] at hc
            simp at hc
          · intro _
            dsimp only []
            exact hsum
        · have hs1c : ({ (raiseApply s).1 with
              active_player := 1 - s.active_player } : FastState).hand_complete
              = false := by
            dsimp only []
            rw [hcomp]
            exact hsc
          have hrec := ih _ _ _ _ _ h hs1c
          constructor
          · intro hc
            have hh := hrec.1 hc
            dsimp only [] at hh
            rw [hsum] at hh
            exact hh
          · intro hc
            have hh := hrec.2 hc
            dsimp only [] at hh
            rw [hsum] at hh
            exact hh
      · split at h
        · cases h
          constructor
          · intro hc
            dsimp only [] at hc
            rw [hsc] at hc
            simp at hc
          · intro _
            dsimp only []
        · have hs1c : ({ s with
              active_player := 1 - s.active_player } : FastState).hand_complete
              = false := hsc
          have hrec := ih _ _ _ _ _ h hs1c
          constructor
          · intro hc
            have hh := hrec.1 hc
            dsimp only [] at hh
            exact hh
          · intro hc
            have hh := hrec.2 hc
            dsimp only [] at hh
            exact hh

theorem reset_props (s : FastState) (sb bb : ℚ) (btn : Fin 2) (st : ℚ) :
    (s.reset sb bb btn st).hand_complete = false ∧
    (s.reset sb bb btn st).stacks' 0 + (s.reset sb bb btn st).stacks' 1
        + (s.reset sb bb btn st).pot = 2 * st := by
  unfold FastState.reset
  split
  · refine ⟨rfl, ?_⟩
    dsimp only []
    rw [if_pos rfl, if_neg (by decide : ¬ (1 : Fin 2) = 0)]
    ring
  · refine ⟨rfl, ?_⟩
    dsimp only []
    rw [if_neg (by decide : ¬ (0 : Fin 2) = 1), if_pos rfl]
    ring

theorem playLoop_total (R : RandFuns) (P : Fin 2 → StratOracle)
    (burn : Fin 2 → BurnState) (btn : Fin 2) (deck : List ℕ) (innerFuel : ℕ) :
    ∀ (fuel : ℕ) (s : FastState) (rng : RngState) (qc idx : ℕ)
      (out : FastState × RngState × ℕ),
      playLoop R P burn btn deck innerFuel fuel s rng qc idx = some out →
      s.hand_complete = false →
      out.1.hand_complete = true ∧
      out.1.stacks' 0 + out.1.stacks' 1 = s.stacks' 0 + s.stacks' 1 + s.pot := by
  intro fuel
  induction fuel with
  | zero =>
    intro s rng qc idx out h
    simp [playLoop] at h
  | succ n ih =>
    intro s rng qc idx out h hsc
    simp only [playLoop] at h
    split at h
    · rename_i hcond
      rw [hsc] at hcond
      simp at hcond
    · split at h
      · simp at h
      · rename_i s1 rng1 qc1 heq
        have hrt := runStreet_total R P burn btn _ _ _ _ _ _ heq hsc
        dsimp only [] at hrt
        split at h
        · rename_i hc1
          cases h
          exact ⟨hc1, hrt.1 hc1⟩
        · split at h
          · rename_i hc1 hst3
            cases h
            obtain ⟨hssum, hscomp⟩ := showdown_props s1
            have hs1f : s1.hand_complete = false := by
              cases hcc : s1.hand_complete
              · rfl
              · exact absurd hcc hc1
            refine ⟨hscomp, ?_⟩
            rw [hssum]
            exact hrt.2 hs1f
          · rename_i hc1 hst
            have hs1f : s1.hand_complete = false := by
              cases hcc : s1.hand_complete
              · rfl
              · exact absurd hcc hc1
            obtain ⟨hasum, hacomp⟩ := advanceStreet_props s1 deck idx btn
            have hadvc : (advanceStreet s1 deck idx btn).1.hand_complete = false := by
              rw [hacomp]
              exact hs1f
            have hrec := ih _ _ _ _ _ h hadvc
            refine ⟨hrec.1, ?_⟩
            rw [hrec.2, hasum]
            exact hrt.2 hs1f

/-- C2: zero-sum chip conservation — every completed hand ends with the two
stacks summing to twice the starting stack, whatever the strategies, seeds,
button position and action sequence (folds, all-in refunds, split pots and
the runaway-pot safeguard included); equivalently the two profits cancel. -/
theorem chip_conservation :
    ∀ (R : RandFuns) (P : Fin 2 → StratOracle) (burn : Fin 2 → BurnState)
      (eng : EngineCtx) (hand_id : ℕ) (btn : Fin 2) (innerFuel : ℕ)
      (out : EngineCtx × FastState),
      playHand R P burn eng hand_id btn innerFuel = some out →
      out.2.stacks' 0 + out.2.stacks' 1 = 2 * eng.stack ∧
      (out.2.stacks' 0 - eng.stack) + (out.2.stacks' 1 - eng.stack) = 0 := by
  intro R P burn eng hand_id btn innerFuel out h
  simp only [playHand] at h
  split at h
  · simp at h
  · rename_i sf rng qc heq
    cases h
    obtain ⟨hrc, hrs⟩ := reset_props (FastState.mkInit eng.stack)
      eng.sb eng.bb btn eng.stack
    have hpl := playLoop_total R P burn btn _ innerFuel _ _ _ _ _ _ heq (by
      dsimp only []
      exact hrc)
    dsimp only [] at hpl
    have hsum : sf.stacks' 0 + sf.stacks' 1 = 2 * eng.stack := by
      rw [hpl.2]
      exact hrs
    refine ⟨hsum, by linarith⟩

theorem engineAction_foldStrat (r : ℚ) : engineAction [(Act.fold, 1)] r = Act.fold := by
  unfold engineAction
  rw [if_neg (by simp : ¬ ([(Act.fold, 1)] : List (Act × ℚ)) = [])]
  have hargm : argmaxKey [(Act.fold, 1)] = Act.fold := rfl
  show sampleLoop r 0 (argmaxKey [(Act.fold, 1)]) [(Act.fold, 1)] = Act.fold
  rw [hargm]
  unfold sampleLoop
  dsimp only []
  split
  · rfl
  · rfl

/-- C2 witness: a concrete completed hand (an immediate button fold under
the default configuration) conserves the 400 total chips. -/
theorem chip_conservation_witness :
    ∃ out : EngineCtx × FastState,
      playHand R0 (fun _ => foldStrat) (fun _ => B0) eng0 0 0 1 = some out ∧
      out.2.stacks' 0 + out.2.stacks' 1 = 2 * eng0.stack ∧
      (out.2.stacks' 0 - eng0.stack) + (out.2.stacks' 1 - eng0.stack) = 0 := by
  match hh : playHand R0 (fun _ => foldStrat) (fun _ => B0) eng0 0 0 1 with
  | none =>
    exfalso
    simp only [playHand, playLoop, runStreet, foldStrat, engineAction_foldStrat,
      foldApply, FastState.reset, FastState.mkInit] at hh
    simp at hh
  | some out =>
    exact ⟨out, rfl,
      chip_conservation R0 (fun _ => foldStrat) (fun _ => B0) eng0 0 0 1 out hh⟩

/-- C4 counterexample: in a state where the acting player (stack 30, wager
0) faces a wager of 50 with pot 100, the refund excess is 20, but the
post-call pot is 110 = 100 - 20 + 30, not 100 - 20 = 80: the pot does not
decrease by the excess — it also receives the partial call. -/
theorem allin_refund_pot_counterexample :
    c4state.stacks' c4state.active_player
        < c4state.bets (1 - c4state.active_player)
          - c4state.bets c4state.active_player ∧
    (callApply c4state).pot = 110 ∧
    c4state.pot - (c4state.bets (1 - c4state.active_player)
        - c4state.bets c4state.active_player
        - c4state.stacks' c4state.active_player) = 80 ∧
    (110 : ℚ) ≠ 80 := by
  have h1 : c4state.active_player = 0 := rfl
  have h2 : (1 - 0 : Fin 2) = 1 := rfl
  refine ⟨?_, ?_, ?_, by norm_num⟩
  · simp only [c4state, h1, h2]
    norm_num
  · simp only [callApply, c4state, h1, h2]
    norm_num [Function.update]
  · simp only [c4state, h1, h2]
    norm_num

/-- C4 amended: when a Call is applied and the amount to call exceeds the
acting player's (non-negative) stack, afterwards both current-street
wagers are equal and the opponent's stack has increased by exactly the
refunded excess; the pot loses the excess but gains the partial call, so
its net change is the player's stack minus the excess (not a decrease by
the excess alone). -/
theorem allin_refund :
    ∀ s : FastState,
      0 ≤ s.stacks' s.active_player →
      s.stacks' s.active_player
          < s.bets (1 - s.active_player) - s.bets s.active_player →
      (callApply s).bets 0 = (callApply s).bets 1 ∧
      (callApply s).stacks' (1 - s.active_player)
        = s.stacks' (1 - s.active_player)
          + (s.bets (1 - s.active_player) - s.bets s.active_player
             - s.stacks' s.active_player) ∧
      (callApply s).pot
        = s.pot - (s.bets (1 - s.active_player) - s.bets s.active_player
             - s.stacks' s.active_player) + s.stacks' s.active_player := by
  intro s h0 hlt
  unfold callApply
  dsimp only []
  rw [if_neg (by
    intro heq
    rw [heq] at hlt
    linarith)]
  rw [if_pos hlt]
  dsimp only []
  rcases fin2_cases s.active_player with hp | hp <;>
    refine ⟨?_, ?_, ?_⟩ <;>
    simp [Function.update, hp, show (1 - 0 : Fin 2) = 1 from rfl,
      show (1 - 1 : Fin 2) = 0 from rfl] <;>
    ring

/-- C4 witness: the amended refund facts at the concrete short-stack state. -/
theorem allin_refund_witness :
    (callApply c4state).bets 0 = (callApply c4state).bets 1 ∧
    (callApply c4state).stacks' (1 - c4state.active_player)
      = c4state.stacks' (1 - c4state.active_player)
        + (c4state.bets (1 - c4state.active_player)
           - c4state.bets c4state.active_player
           - c4state.stacks' c4state.active_player) ∧
    (callApply c4state).pot
      = c4state.pot - (c4state.bets (1 - c4state.active_player)
           - c4state.bets c4state.active_player
           - c4state.stacks' c4state.active_player)
        + c4state.stacks' c4state.active_player :=
  allin_refund c4state
    (by simp only [c4state]; norm_num)
    (by simp only [c4state]; norm_num)

theorem sampleLoop_cons_le {r cum p : ℚ} {sel a : Act} {t : List (Act × ℚ)}
    (h : r ≤ cum + p) : sampleLoop r cum sel ((a, p) :: t) = a := by
  simp only [sampleLoop]
  rw [if_pos h]

theorem sampleLoop_cons_gt {r cum p : ℚ} {sel a : Act} {t : List (Act × ℚ)}
    (h : ¬ r ≤ cum + p) : sampleLoop r cum sel ((a, p) :: t)
      = sampleLoop r (cum + p) sel t := by
  simp only [sampleLoop]
  rw [if_neg h]

theorem sampleLoop_nil (r cum : ℚ) (sel : Act) : sampleLoop r cum sel [] = sel := rfl

/-- C5 counterexample: the engine does not normalize weights before
sampling — for the un-normalized distribution `{fold: 5, call: 5}` and the
uniform draw r = 0.7, normalized sampling picks Call but the engine picks
Fold; and an all-zero distribution falls back to the argmax (its first
key, Fold), not to Call. -/
theorem strategy_sampling_counterexample :
    normalizedAction [(Act.fold, 5), (Act.call, 5)] (7 / 10) = Act.call ∧
    engineAction [(Act.fold, 5), (Act.call, 5)] (7 / 10) = Act.fold ∧
    engineAction [(Act.fold, 0), (Act.call, 0), (Act.raise, 0)] (1 / 2)
      = Act.fold := by
  refine ⟨?_, ?_, ?_⟩
  · unfold normalizedAction
    simp only [List.map_cons, List.map_nil, List.sum_cons, List.sum_nil]
    rw [sampleLoop_cons_gt (by norm_num), sampleLoop_cons_le (by norm_num)]
  · unfold engineAction
    rw [if_neg (by simp)]
    rw [sampleLoop_cons_le (by norm_num)]
  · unfold engineAction
    rw [if_neg (by simp)]
    rw [sampleLoop_cons_gt (by norm_num), sampleLoop_cons_gt (by norm_num),
      sampleLoop_cons_gt (by norm_num), sampleLoop_nil]
    simp [argmaxKey, List.foldl]

theorem sampleLoop_all_zero (r : ℚ) : ∀ (l : List (Act × ℚ)) (cum : ℚ) (sel : Act),
    (∀ x ∈ l, x.2 = 0) → ¬ r ≤ cum → sampleLoop r cum sel l = sel := by
  intro l
  induction l with
  | nil => intro cum sel _ _; rfl
  | cons a t ih =>
    intro cum sel hz hgt
    obtain ⟨a1, a2⟩ := a
    have ha2 : a2 = 0 := hz (a1, a2) (List.mem_cons_self _ _)
    subst ha2
    rw [sampleLoop_cons_gt (by rwa [add_zero]), add_zero]
    exact ih cum sel (fun x hx => hz x (List.mem_cons_of_mem _ hx)) hgt

/-- C5 amended: an empty mapping falls back to `{'call': 1.0}` (so Call is
sampled for any draw in [0,1]); but weights are sampled raw — the engine
does not normalize them — with the argmax of the mapping as the fallback
when the cumulative weights never reach the draw; in particular an
all-zero mapping yields its argmax (its first key), not Call. -/
theorem strategy_sampling_amended :
    (∀ r : ℚ, 0 ≤ r → r ≤ 1 → engineAction [] r = Act.call) ∧
    (∀ (probs : List (Act × ℚ)) (r : ℚ), probs ≠ [] →
      (∀ x ∈ probs, x.2 = 0) → 0 < r →
      engineAction probs r = argmaxKey probs) := by
  constructor
  · intro r _ hr1
    unfold engineAction
    rw [if_pos rfl]
    rw [sampleLoop_cons_le (by linarith)]
  · intro probs r hne hz hr
    unfold engineAction
    rw [if_neg hne]
    exact sampleLoop_all_zero r probs 0 (argmaxKey probs) hz (by linarith)

/-- C5 witness: the amendment at a draw of one half and a concrete
all-zero two-key mapping. -/
theorem strategy_sampling_amended_witness :
    engineAction [] (1 / 2) = Act.call ∧
    engineAction [(Act.fold, 0), (Act.call, 0)] (1 / 2)
      = argmaxKey [(Act.fold, 0), (Act.call, 0)] :=
  ⟨strategy_sampling_amended.1 (1 / 2) (by norm_num) (by norm_num),
   strategy_sampling_amended.2 [(Act.fold, 0), (Act.call, 0)] (1 / 2)
     (by simp)
     (by
       intro x hx
       simp only [List.mem_cons, List.not_mem_nil, or_false] at hx
       rcases hx with rfl | rfl <;> rfl)
     (by norm_num)⟩

/-! ### C3: deterministic deal replay -/

theorem foldApply_cards (s : FastState) :
    (foldApply s).hole_cards = s.hole_cards ∧ (foldApply s).board = s.board :=
  ⟨rfl, rfl⟩

theorem callApply_cards (s : FastState) :
    (callApply s).hole_cards = s.hole_cards ∧ (callApply s).board = s.board := by
  unfold callApply
  dsimp only []
  split
  · exact ⟨rfl, rfl⟩
  · split
    · exact ⟨rfl, rfl⟩
    · exact ⟨rfl, rfl⟩

theorem raiseApply_cards (s : FastState) :
    (raiseApply s).1.hole_cards = s.hole_cards ∧ (raiseApply s).1.board = s.board := by
  unfold raiseApply
  dsimp only []
  split <;> split <;> exact ⟨rfl, rfl⟩

theorem showdown_cards (s : FastState) :
    (showdown s).hole_cards = s.hole_cards ∧ (showdown s).board = s.board := by
  unfold showdown
  dsimp only []
  split
  · exact ⟨rfl, rfl⟩
  · split
    · exact ⟨rfl, rfl⟩
    · exact ⟨rfl, rfl⟩

theorem reset_cards (s : FastState) (sb bb : ℚ) (btn : Fin 2) (st : ℚ) :
    (s.reset sb bb btn st).board = [] ∧
    (s.reset sb bb btn st).hole_cards = s.hole_cards := by
  unfold FastState.reset
  split
  · exact ⟨rfl, rfl⟩
  · exact ⟨rfl, rfl⟩

/-- A street of betting never touches the hole cards or the board. -/
theorem runStreet_cards (R : RandFuns) (P : Fin 2 → StratOracle)
    (burn : Fin 2 → BurnState) (btn : Fin 2) :
    ∀ (fuel : ℕ) (s : FastState) (rng : RngState) (qc : ℕ) (fa : Bool)
      (out : FastState × RngState × ℕ),
      runStreet R P burn btn fuel s rng qc fa = some out →
      out.1.hole_cards = s.hole_cards ∧ out.1.board = s.board := by
  intro fuel
  induction fuel with
  | zero =>
    intro s rng qc fa out h
    simp [runStreet] at h
  | succ n ih =>
    intro s rng qc fa out h
    simp only [runStreet] at h
    split at h
    · cases h
      exact ⟨rfl, rfl⟩
    · split at h
      · cases h
        exact foldApply_cards s
      · obtain ⟨hch, hcb⟩ := callApply_cards s
        split at h
        · cases h
          exact ⟨hch, hcb⟩
        · have hrec := ih _ _ _ _ _ h
          dsimp only [] at hrec
          exact ⟨hrec.1.trans hch, hrec.2.trans hcb⟩
      · obtain ⟨hch, hcb⟩ := raiseApply_cards s
        split at h
        · cases h
          exact ⟨hch, hcb⟩
        · have hrec := ih _ _ _ _ _ h
          dsimp only [] at hrec
          exact ⟨hrec.1.trans hch, hrec.2.trans hcb⟩
      · split at h
        · cases h
          exact ⟨rfl, rfl⟩
        · have hrec := ih _ _ _ _ _ h
          dsimp only [] at hrec
          exact hrec

/-- Advancing the street keeps the hole cards and extends a board that is a
prefix of the runout (the deck past the four hole cards) to a longer prefix
of the same runout. -/
theorem advanceStreet_cards (s : FastState) (deck : List ℕ) (idx : ℕ) (btn : Fin 2)
    (hb : s.board = (deck.drop 4).take (idx - 4)) (h4 : 4 ≤ idx) :
    (advanceStreet s deck idx btn).1.hole_cards = s.hole_cards ∧
    (advanceStreet s deck idx btn).1.board
        = (deck.drop 4).take ((advanceStreet s deck idx btn).2 - 4) ∧
    4 ≤ (advanceStreet s deck idx btn).2 := by
  have key : ∀ c : ℕ, s.board ++ (deck.drop idx).take c
      = (deck.drop 4).take (idx + c - 4) := by
    intro c
    rw [hb]
    have h1 : idx + c - 4 = (idx - 4) + c := by omega
    rw [h1, List.take_add, List.drop_drop]
    have h2 : 4 + (idx - 4) = idx := by omega
    rw [h2]
  unfold advanceStreet
  dsimp only []
  split
  · exact ⟨rfl, key 3, by omega⟩
  · split
    · exact ⟨rfl, key 1, by omega⟩
    · split
      · exact ⟨rfl, key 1, by omega⟩
      · exact ⟨rfl, hb, h4⟩

/-- The hand loop never touches the hole cards, and the final board is a
prefix of the runout. -/
theorem playLoop_cards (R : RandFuns) (P : Fin 2 → StratOracle)
    (burn : Fin 2 → BurnState) (btn : Fin 2) (deck : List ℕ) (innerFuel : ℕ) :
    ∀ (fuel : ℕ) (s : FastState) (rng : RngState) (qc idx : ℕ)
      (out : FastState × RngState × ℕ),
      playLoop R P burn btn deck innerFuel fuel s rng qc idx = some out →
      s.board = (deck.drop 4).take (idx - 4) → 4 ≤ idx →
      out.1.hole_cards = s.hole_cards ∧
      ∃ k, out.1.board = (deck.drop 4).take k := by
  intro fuel
  induction fuel with
  | zero =>
    intro s rng qc idx out h
    simp [playLoop] at h
  | succ n ih =>
    intro s rng qc idx out h hb h4
    simp only [playLoop] at h
    split at h
    · cases h
      exact ⟨rfl, idx - 4, hb⟩
    · split at h
      · simp at h
      · rename_i s1 rng1 qc1 heq
        have hrc := runStreet_cards R P burn btn _ _ _ _ _ _ heq
        split at h
        · cases h
          exact ⟨hrc.1, idx - 4, hrc.2.trans hb⟩
        · split at h
          · cases h
            obtain ⟨hsh, hsb⟩ := showdown_cards s1
            exact ⟨hsh.trans hrc.1, idx - 4, hsb.trans (hrc.2.trans hb)⟩
          · obtain ⟨hah, hab, ha4⟩ := advanceStreet_cards s1 deck idx btn
              (hrc.2.trans hb) h4
            have hrec := ih _ _ _ _ _ h hab ha4
            exact ⟨hrec.1.trans (hah.trans hrc.1), hrec.2⟩

/-- What `play_hand` deals is a pure function of the seeded shuffle of the
engine's current deck: the hole cards are the first four shuffled cards, the
board is a prefix of the runout, and the returned engine keeps the shuffled
deck in place of the one it started with. -/
theorem playHand_deal (R : RandFuns) (P : Fin 2 → StratOracle)
    (burn : Fin 2 → BurnState) (eng : EngineCtx) (hand_id : ℕ) (btn : Fin 2)
    (innerFuel : ℕ) (out : EngineCtx × FastState)
    (h : playHand R P burn eng hand_id btn innerFuel = some out) :
    out.2.hole_cards 0 = [(shuffledDeck R eng hand_id).getD 0 0,
      (shuffledDeck R eng hand_id).getD 1 0] ∧
    out.2.hole_cards 1 = [(shuffledDeck R eng hand_id).getD 2 0,
      (shuffledDeck R eng hand_id).getD 3 0] ∧
    (∃ k, out.2.board = ((shuffledDeck R eng hand_id).drop 4).take k) ∧
    out.1 = { eng with deck := shuffledDeck R eng hand_id } := by
  simp only [playHand] at h
  split at h
  · simp at h
  · rename_i sf rng qc heq
    cases h
    have hpl := playLoop_cards R P burn btn _ innerFuel _ _ _ _ _ _ heq
      (by simp [(reset_cards (FastState.mkInit eng.stack) eng.sb eng.bb btn
        eng.stack).1]) (le_refl 4)
    refine ⟨(congrFun hpl.1 0).trans rfl, (congrFun hpl.1 1).trans rfl, ?_, rfl⟩
    obtain ⟨k, hk⟩ := hpl.2
    exact ⟨k, hk⟩

/-- C3 amended: the deal is deterministic in the PRNG, the base seed, the
hand index and the engine's CURRENT deck — two completed hands with the same
hand index on engines agreeing on base seed and current deck (whatever the
strategies, button positions and fuel) deal identical hole cards to both
players, boards that are prefixes of the same runout, and leave the same
shuffled deck behind.  The claim as stated drops the deck premise, and is
false: the shuffle mutates the persistent deck, so unrelated intervening
hands change what a replay deals. -/
theorem deal_replay_amended :
    ∀ (R : RandFuns) (P P' : Fin 2 → StratOracle) (burn burn' : Fin 2 → BurnState)
      (eng eng' : EngineCtx) (hand_id : ℕ) (btn btn' : Fin 2) (f f' : ℕ)
      (out out' : EngineCtx × FastState),
      eng'.deck = eng.deck → eng'.base_seed = eng.base_seed →
      playHand R P burn eng hand_id btn f = some out →
      playHand R P' burn' eng' hand_id btn' f' = some out' →
      (∀ i : Fin 2, out'.2.hole_cards i = out.2.hole_cards i) ∧
      (∃ k, out.2.board = ((shuffledDeck R eng hand_id).drop 4).take k) ∧
      (∃ k', out'.2.board = ((shuffledDeck R eng hand_id).drop 4).take k') ∧
      out'.1.deck = out.1.deck := by
  intro R P P' burn burn' eng eng' hand_id btn btn' f f' out out' hdk hbs h h'
  have hsame : shuffledDeck R eng' hand_id = shuffledDeck R eng hand_id := by
    unfold shuffledDeck
    rw [hdk, hbs]
  have d1 := playHand_deal R P burn eng hand_id btn f out h
  have d2 := playHand_deal R P' burn' eng' hand_id btn' f' out' h'
  rw [hsame] at d2
  refine ⟨?_, d1.2.2.1, d2.2.2.1, ?_⟩
  · intro i
    rcases fin2_cases i with h0 | h1
    · rw [h0, d1.1, d2.1]
    · rw [h1, d1.2.1, d2.2.1]
  · rw [d1.2.2.2, d2.2.2.2]

set_option maxRecDepth 10000 in
/-- C3 counterexample: on the default engine (base seed 42), replaying hand
index 0 after one unrelated hand (index 1) was played on the same engine
deals player 0 different hole cards — the in-place shuffle of the persistent
deck makes the deal depend on the prior hands, so determinism in
`(base_seed, hand_index)` alone fails. -/
theorem deal_replay_counterexample :
    ∃ (o1 out out' : EngineCtx × FastState),
      playHand R0 (fun _ => foldStrat) (fun _ => B0) eng0 1 0 1 = some o1 ∧
      o1.1 = eng1 ∧
      playHand R0 (fun _ => foldStrat) (fun _ => B0) eng0 0 0 1 = some out ∧
      playHand R0 (fun _ => foldStrat) (fun _ => B0) eng1 0 0 1 = some out' ∧
      eng1.base_seed = eng0.base_seed ∧
      out.2.hole_cards 0 ≠ out'.2.hole_cards 0 := by
  match h1 : playHand R0 (fun _ => foldStrat) (fun _ => B0) eng0 1 0 1,
        h2 : playHand R0 (fun _ => foldStrat) (fun _ => B0) eng0 0 0 1,
        h3 : playHand R0 (fun _ => foldStrat) (fun _ => B0) eng1 0 0 1 with
  | none, _, _ =>
    exfalso
    simp only [playHand, playLoop, runStreet, foldStrat, engineAction_foldStrat,
      foldApply, FastState.reset, FastState.mkInit] at h1
    simp at h1
  | some _, none, _ =>
    exfalso
    simp only [playHand, playLoop, runStreet, foldStrat, engineAction_foldStrat,
      foldApply, FastState.reset, FastState.mkInit] at h2
    simp at h2
  | some _, some _, none =>
    exfalso
    simp only [playHand, playLoop, runStreet, foldStrat, engineAction_foldStrat,
      foldApply, FastState.reset, FastState.mkInit] at h3
    simp at h3
  | some o1, some out, some out' =>
    have d0 := playHand_deal _ _ _ _ _ _ _ _ h1
    have dA := playHand_deal _ _ _ _ _ _ _ _ h2
    have dB := playHand_deal _ _ _ _ _ _ _ _ h3
    refine ⟨o1, out, out', rfl, ?_, rfl, rfl, rfl, ?_⟩
    · rw [d0.2.2.2]
      rfl
    · rw [dA.1, dB.1]
      decide

/-- C3 witness for the amendment: two completed hands with index 0 on the
same fresh engine — different strategies and button positions — deal both
players identical hole cards and leave the same deck. -/
theorem deal_replay_amended_witness :
    ∃ out out' : EngineCtx × FastState,
      playHand R0 (fun _ => foldStrat) (fun _ => B0) eng0 0 0 1 = some out ∧
      playHand R0 (fun _ => foldStrat) (fun _ => B0) eng0 0 1 1 = some out' ∧
      ((∀ i : Fin 2, out'.2.hole_cards i = out.2.hole_cards i) ∧
       (∃ k, out.2.board = ((shuffledDeck R0 eng0 0).drop 4).take k) ∧
       (∃ k', out'.2.board = ((shuffledDeck R0 eng0 0).drop 4).take k') ∧
       out'.1.deck = out.1.deck) := by
  match h2 : playHand R0 (fun _ => foldStrat) (fun _ => B0) eng0 0 0 1,
        h3 : playHand R0 (fun _ => foldStrat) (fun _ => B0) eng0 0 1 1 with
  | none, _ =>
    exfalso
    simp only [playHand, playLoop, runStreet, foldStrat, engineAction_foldStrat,
      foldApply, FastState.reset, FastState.mkInit] at h2
    simp at h2
  | some _, none =>
    exfalso
    simp only [playHand, playLoop, runStreet, foldStrat, engineAction_foldStrat,
      foldApply, FastState.reset, FastState.mkInit] at h3
    simp at h3
  | some out, some out' =>
    exact ⟨out, out', rfl, rfl,
      deal_replay_amended R0 (fun _ => foldStrat) (fun _ => foldStrat)
        (fun _ => B0) (fun _ => B0) eng0 eng0 0 0 1 1 1 out out' rfl rfl h2 h3⟩

/-! ### C7: equity estimator postcondition -/

theorem equityDeck_mem (hole board : List ℕ) (c : ℕ) :
    c ∈ equityDeck hole board ↔ c < 52 ∧ c ∉ hole ∧ c ∉ board := by
  unfold equityDeck
  simp [List.mem_filter, List.mem_range, List.mem_append, not_or]

theorem equityDeck_nodup (hole board : List ℕ) : (equityDeck hole board).Nodup :=
  List.Nodup.filter _ (List.nodup_range 52)

/-- A step that adds at most one to the sum of the two counters keeps the
sum bounded by the number of steps. -/
theorem foldl_step_le {α : Type} (g : ℕ × ℕ → α → ℕ × ℕ)
    (hg : ∀ ws a, (g ws a).1 + (g ws a).2 ≤ ws.1 + ws.2 + 1) :
    ∀ (l : List α) (ws : ℕ × ℕ),
      (l.foldl g ws).1 + (l.foldl g ws).2 ≤ ws.1 + ws.2 + l.length := by
  intro l
  induction l with
  | nil =>
    intro ws
    simp
  | cons a t ih =>
    intro ws
    simp only [List.foldl_cons, List.length_cons]
    have h1 := ih (g ws a)
    have h2 := hg ws a
    omega

theorem div_bounds_of_le (w t n : ℕ) (hn : 1 ≤ n) (hle : w + t ≤ n) :
    0 ≤ ((w : ℚ) + (t : ℚ) / 2) / (n : ℚ) ∧
    ((w : ℚ) + (t : ℚ) / 2) / (n : ℚ) ≤ 1 := by
  have hn0 : (0 : ℚ) < (n : ℚ) := by
    have : (1 : ℚ) ≤ (n : ℚ) := by exact_mod_cast hn
    linarith
  have hw : (0 : ℚ) ≤ (w : ℚ) := Nat.cast_nonneg w
  have ht : (0 : ℚ) ≤ (t : ℚ) := Nat.cast_nonneg t
  have hwt : (w : ℚ) + (t : ℚ) ≤ (n : ℚ) := by exact_mod_cast hle
  constructor
  · apply div_nonneg <;> linarith
  · rw [div_le_one hn0]
    linarith

theorem calculateEquity_bounds (sample : ℕ → List ℕ → ℕ → List ℕ)
    (hole board : List ℕ) (n : ℕ) (hn : 1 ≤ n) :
    0 ≤ calculateEquity sample hole board n ∧
    calculateEquity sample hole board n ≤ 1 := by
  unfold calculateEquity
  dsimp only []
  refine div_bounds_of_le _ _ n hn ?_
  refine le_trans (foldl_step_le _ ?_ (List.range n) (0, 0)) (by simp)
  intro ws a
  dsimp only []
  split
  · dsimp only []
    omega
  · split
    · dsimp only []
      omega
    · omega

/-- C7: the equity estimator's postcondition — the sampling population is
exactly the 52 cards minus the hero's hole cards minus the board, with no
duplicates (so its draws are without replacement); each iteration requests
exactly 2 + (5 − |board|) cards; the result is (wins + splits/2)/n, which
lies in [0, 1] whenever n ≥ 1. -/
theorem equity_estimator_postcondition :
    ∀ (sample : ℕ → List ℕ → ℕ → List ℕ) (hole board : List ℕ) (n : ℕ),
      1 ≤ n →
      (∀ c, c ∈ equityDeck hole board ↔ c < 52 ∧ c ∉ hole ∧ c ∉ board) ∧
      (equityDeck hole board).Nodup ∧
      equitySampleSize board = 2 + (5 - board.length) ∧
      calculateEquity sample hole board n
        = (((equityCounts sample hole board n).1 : ℚ)
            + ((equityCounts sample hole board n).2 : ℚ) / 2) / (n : ℚ) ∧
      0 ≤ calculateEquity sample hole board n ∧
      calculateEquity sample hole board n ≤ 1 := by
  intro sample hole board n hn
  exact ⟨fun c => equityDeck_mem hole board c, equityDeck_nodup hole board,
    rfl, rfl, (calculateEquity_bounds sample hole board n hn).1,
    (calculateEquity_bounds sample hole board n hn).2⟩

/-- C7 witness: the empty-input instance at one iteration (an oracle that
returns no cards). -/
theorem equity_estimator_postcondition_witness :
    1 ≤ 1 ∧
    ((∀ c, c ∈ equityDeck [] [] ↔ c < 52 ∧ c ∉ ([] : List ℕ) ∧ c ∉ ([] : List ℕ)) ∧
     (equityDeck [] []).Nodup ∧
     equitySampleSize [] = 2 + (5 - ([] : List ℕ).length) ∧
     calculateEquity (fun _ _ _ => []) [] [] 1
       = (((equityCounts (fun _ _ _ => []) [] [] 1).1 : ℚ)
           + ((equityCounts (fun _ _ _ => []) [] [] 1).2 : ℚ) / 2) / ((1 : ℕ) : ℚ) ∧
     0 ≤ calculateEquity (fun _ _ _ => []) [] [] 1 ∧
     calculateEquity (fun _ _ _ => []) [] [] 1 ≤ 1) :=
  ⟨le_refl 1,
   equity_estimator_postcondition (fun _ _ _ => []) [] [] 1 (le_refl 1)⟩

/-! ### C8: lookup-table load failure handling -/

/-- C8 counterexample: `GTOBTable._load` does not degrade — a missing file
raises `FileNotFoundError`, bad magic raises `AssertionError`, and a
truncated record does not empty the table: the loader breaks out of the
loop keeping the records already parsed (here one record, hand id 5). -/
theorem table_load_counterexample :
    gtobTableLoad none = Except.error LoadErr.fileNotFound ∧
    gtobTableLoad (some badMagicBytes) = Except.error LoadErr.assertError ∧
    gtobTableLoad (some truncatedGtob)
      = Except.ok [(5, ⟨((10 : ℕ) : ℚ) / 255, ((20 : ℕ) : ℚ) / 255,
          ((30 : ℕ) : ℚ) / 255⟩)] ∧
    ([(5, (⟨((10 : ℕ) : ℚ) / 255, ((20 : ℕ) : ℚ) / 255,
        ((30 : ℕ) : ℚ) / 255⟩ : ActionWeights))] : List (ℕ × ActionWeights)) ≠ [] :=
  ⟨rfl, rfl, rfl, by simp⟩

/-- C8 amended: only `RMBALL._load_gtob_preflop_v1` degrades every failure
to an empty table (its whole body is wrapped in `try/except Exception`,
plus an early empty return on bad magic); `GTOBTable._load` instead raises
on a missing file, on a short header and on bad magic, and keeps a partial
(possibly non-empty) table on a truncated record. -/
theorem table_load_amended :
    (rmballLoad none = [] ∧
     (∀ bytes, bytes.take 4 ≠ gtobMagic → rmballLoad (some bytes) = []) ∧
     (∀ bytes err, rmballLoadAux bytes = Except.error err →
        rmballLoad (some bytes) = [])) ∧
    (gtobTableLoad none = Except.error LoadErr.fileNotFound ∧
     (∀ bytes, bytes.length < 12 →
        gtobTableLoad (some bytes) = Except.error LoadErr.structError) ∧
     (∀ bytes, ¬ bytes.length < 12 → bytes.take 4 ≠ gtobMagic →
        gtobTableLoad (some bytes) = Except.error LoadErr.assertError)) := by
  refine ⟨⟨rfl, ?_, ?_⟩, rfl, ?_, ?_⟩
  · intro bytes h
    have haux : rmballLoadAux bytes = Except.ok [] := by
      unfold rmballLoadAux
      rw [if_pos h]
    simp only [rmballLoad, haux]
  · intro bytes err h
    simp only [rmballLoad, h]
  · intro bytes h
    simp only [gtobTableLoad]
    rw [if_pos h]
  · intro bytes h1 h2
    simp only [gtobTableLoad]
    rw [if_neg h1]
    rw [if_pos h2]

/-- C8 witness: the amendment at concrete files — RMBALL returns the empty
table on bad magic and on a truncated record, while the GTOB loader raises
on the bad-magic file. -/
theorem table_load_amended_witness :
    rmballLoad (some badMagicBytes) = [] ∧
    rmballLoad (some truncatedRmball) = [] ∧
    gtobTableLoad (some badMagicBytes) = Except.error LoadErr.assertError :=
  ⟨table_load_amended.1.2.1 badMagicBytes (by decide),
   table_load_amended.1.2.2 truncatedRmball LoadErr.structError rfl,
   table_load_amended.2.2.2 badMagicBytes (by decide) (by decide)⟩

end Poker
